import Mathlib

/-!
Verification of the pippin partition engine against its specification.

The Rust sources embedded here are src/detail/states.rs and
src/detail/partition.rs.  Supporting types that are declared in modules not
present in the source tree (the checksum type in sum.rs, the commit type in
commit.rs, the identifier types, the error enums and the log-replay engine)
are modelled from the specification; each such definition carries a doc
comment starting with `Modelled from the spec:`.

Machine integers are represented as Nat; Rust HashMap values are represented
as association lists whose insert/remove operations act on the first
occurrence of a key, matching HashMap semantics on the nodup-keys states the
code constructs.  Methods taking `&mut self` are embedded as functions
returning the result value paired with the post-state, so that mutation on
an error path (which the Rust code can perform) stays observable.
-/

namespace Pippin

/-- Modelled from the spec: element-level error kinds (`ElementOp` in
error.rs, which is not among the provided sources). -/
inductive ElementOp where
  | NotFound
  | NotLoaded
  | IdClash
  | WrongPartition
  | IdGenFailure
  | ClassifyFailure
deriving DecidableEq, Repr

/-- Modelled from the spec: commit-application error kinds (`PatchOp` in
error.rs, which is not among the provided sources). -/
inductive PatchOp where
  | SumClash
  | NoParent
  | PatchApplyFailed
deriving DecidableEq, Repr

/-- Modelled from the spec: tip-query error kinds (`TipError` in error.rs,
which is not among the provided sources). -/
inductive TipError where
  | NotReady
  | MergeRequired
deriving DecidableEq, Repr

/-- Modelled from the spec: prefix-lookup error kinds (`MatchError` in
error.rs, which is not among the provided sources).  The two strings of
`MultiMatch` are rendered sums; we carry them as character lists. -/
inductive MatchError where
  | NoMatch
  | MultiMatch (a b : List Char)
deriving DecidableEq, Repr

/-- Modelled from the spec: `Sum` (sum.rs is not among the provided sources)
is a fixed-width 32-byte checksum with a commutative, associative,
self-inverse permute combiner and a zero identity, i.e. bytewise XOR.  We
represent the byte string by the natural number its big-endian bytes denote,
so permute is bitwise XOR on Nat. -/
def Sum : Type := Nat

instance : DecidableEq Sum := inferInstanceAs (DecidableEq Nat)
instance : BEq Sum := inferInstanceAs (BEq Nat)
instance : LawfulBEq Sum := inferInstanceAs (LawfulBEq Nat)
instance : Repr Sum := inferInstanceAs (Repr Nat)
instance : OfNat Sum n := inferInstanceAs (OfNat Nat n)

/-- Modelled from the spec: the distinguished zero checksum. -/
def Sum.zero : Sum := 0

/-- Modelled from the spec: the commutative self-inverse combiner
(`Sum::permute`); in Rust it mutates in place, here it returns the result. -/
def Sum.permute (a b : Sum) : Sum := Nat.xor a b

/-- Association-list lookup; mirrors `HashMap::get`, acting on the first
occurrence of the key. -/
def mapLookup {α : Type} (k : Nat) : List (Nat × α) → Option α
  | [] => none
  | p :: t => if p.1 = k then some p.2 else mapLookup k t

/-- Association-list insert; mirrors `HashMap::insert`, replacing the first
occurrence of the key in place or appending a fresh binding. -/
def mapInsert {α : Type} (k : Nat) (v : α) : List (Nat × α) → List (Nat × α)
  | [] => [(k, v)]
  | p :: t => if p.1 = k then (k, v) :: t else p :: mapInsert k v t

/-- Association-list removal; mirrors `HashMap::remove`, dropping the first
occurrence of the key. -/
def mapRemove {α : Type} (k : Nat) : List (Nat × α) → List (Nat × α)
  | [] => []
  | p :: t => if p.1 = k then t else p :: mapRemove k t

/-- Modelled from the spec: an `EltId` is a 64-bit composite whose high 40
bits are the partition number; `part_id()` extracts them (the identifier
types are not among the provided sources). -/
def eltPartId (id : Nat) : Nat := id / 2 ^ 24

/-- A state of elements within a partition (states.rs).  The opaque
`CommitMeta` field is omitted: it is opaque user metadata that none of the
embedded operations inspect.  Element payloads `Rc<E>` are represented as
plain values of `E` together with a caller-supplied sum function `esum`
standing for `ElementT::sum`. -/
structure PartitionState (E : Type) where
  part_id : Nat
  parents : List Sum
  statesum : Sum
  elts : List (Nat × E)
  moved : List (Nat × Nat)
deriving DecidableEq, Repr

namespace PartitionState

/-- Create a new state, with no elements or history
(`PartitionState::new`). -/
def new (E : Type) (part_id : Nat) : PartitionState E :=
  { part_id := part_id, parents := [], statesum := Sum.zero,
    elts := [], moved := [] }

/-- Insert an element and return the id (`PartitionState::insert_with_id`). -/
def insert_with_id {E : Type} (esum : E → Sum) (s : PartitionState E)
    (id : Nat) (elt : E) : Except ElementOp Nat × PartitionState E :=
  if eltPartId id ≠ s.part_id then (.error .WrongPartition, s)
  else if (mapLookup id s.elts).isSome then (.error .IdClash, s)
  else (.ok id,
    { s with statesum := s.statesum.permute (esum elt),
             elts := mapInsert id elt s.elts })

/-- Replace an element, returning the one replaced
(`PartitionState::replace_rc` via the `State` impl).  The statesum is
permuted with the new element and the element inserted before the presence
check, exactly as in the source. -/
def replace_rc {E : Type} (esum : E → Sum) (s : PartitionState E)
    (id : Nat) (elt : E) : Except ElementOp E × PartitionState E :=
  let sum1 := s.statesum.permute (esum elt)
  match mapLookup id s.elts with
  | none =>
    (.error .NotFound,
      { s with statesum := sum1, elts := mapInsert id elt s.elts })
  | some removed =>
    (.ok removed,
      { s with statesum := sum1.permute (esum removed),
               elts := mapInsert id elt s.elts })

/-- Remove an element, returning it (`PartitionState::remove` via the
`State` impl). -/
def remove {E : Type} (esum : E → Sum) (s : PartitionState E)
    (id : Nat) : Except ElementOp E × PartitionState E :=
  match mapLookup id s.elts with
  | none => (.error .NotFound, s)
  | some removed =>
    (.ok removed,
      { s with statesum := s.statesum.permute (esum removed),
               elts := mapRemove id s.elts })

/-- Add a note about where an element has been moved to
(`PartitionState::set_move`). -/
def set_move {E : Type} (s : PartitionState E) (id new_id : Nat) :
    PartitionState E :=
  { s with moved := mapInsert id new_id s.moved }

/-- Check the moved-element notes (`PartitionState::is_moved`). -/
def is_moved {E : Type} (s : PartitionState E) (id : Nat) : Option Nat :=
  mapLookup id s.moved

/-- Clone the state, creating a child state
(`PartitionState::clone_child`; the meta field is omitted). -/
def clone_child {E : Type} (s : PartitionState E) : PartitionState E :=
  { s with parents := [s.statesum] }

/-- As `clone_child` but specifying parents
(`PartitionState::child_with_parents`).  The source asserts
`parents[0] == self.statesum`; every call site embedded here satisfies it. -/
def child_with_parents {E : Type} (s : PartitionState E)
    (parents : List Sum) : PartitionState E :=
  { s with parents := parents }

end PartitionState

/-- Permute-fold of the sums of the values of an element map; the
specification's `permute-fold over e in elts of e.sum()`. -/
def eltsSum {E : Type} (esum : E → Sum) : List (Nat × E) → Sum
  | [] => Sum.zero
  | p :: t => (esum p.2).permute (eltsSum esum t)

/-- A mutating element operation on a partition state, as named by claim C1:
`insert_with_id`, `replace_rc` or `remove`. -/
inductive EltOp (E : Type) where
  | insertWithId (id : Nat) (elt : E)
  | replaceRc (id : Nat) (elt : E)
  | remove (id : Nat)

/-- The state after running one mutating operation, whether or not the
operation reported an error (on error `replace_rc` still mutates). -/
def stepOp {E : Type} (esum : E → Sum) (s : PartitionState E) :
    EltOp E → PartitionState E
  | .insertWithId id elt => (s.insert_with_id esum id elt).2
  | .replaceRc id elt => (s.replace_rc esum id elt).2
  | .remove id => (s.remove esum id).2

/-- The state reached from `PartitionState::new` by a sequence of mutating
operations. -/
def runOps {E : Type} (esum : E → Sum) (part_id : Nat)
    (ops : List (EltOp E)) : PartitionState E :=
  ops.foldl (stepOp esum) (PartitionState.new E part_id)

/-- The state-sum consistency property of a single state. -/
def sumInv {E : Type} (esum : E → Sum) (s : PartitionState E) : Prop :=
  s.statesum = eltsSum esum s.elts

/-- Modelled from the spec: one edit of a commit change list; Insert, Remove
(with the prior element sum), Replace (prior sum plus new element) or
NoteMove (commit.rs is not among the provided sources). -/
inductive Change (E : Type) where
  | insert (id : Nat) (elt : E)
  | remove (id : Nat) (prior : Sum)
  | replace (id : Nat) (prior : Sum) (elt : E)
  | noteMove (id new_id : Nat)
deriving DecidableEq, Repr

/-- Modelled from the spec: a commit records the child statesum, a nonempty
ordered parent-sum list and an ordered change list (commit.rs is not among
the provided sources; the opaque meta field is omitted). -/
structure Commit (E : Type) where
  statesum : Sum
  parents : List Sum
  changes : List (Change E)
deriving DecidableEq, Repr

/-- Modelled from the spec: application of a single change to a state, via
the corresponding element operation; any element-level failure surfaces as
`PatchApplyFailed`. -/
def applyChange {E : Type} (esum : E → Sum) (s : PartitionState E) :
    Change E → Except PatchOp (PartitionState E)
  | .insert id elt =>
    match s.insert_with_id esum id elt with
    | (.ok _, s1) => .ok s1
    | (.error _, _) => .error .PatchApplyFailed
  | .remove id _ =>
    match s.remove esum id with
    | (.ok _, s1) => .ok s1
    | (.error _, _) => .error .PatchApplyFailed
  | .replace id _ elt =>
    match s.replace_rc esum id elt with
    | (.ok _, s1) => .ok s1
    | (.error _, _) => .error .PatchApplyFailed
  | .noteMove id nid => .ok (s.set_move id nid)

/-- Modelled from the spec: `Commit::patch` applies the change list to a
state and verifies that the resulting statesum equals the commit's
statesum, failing with `PatchApplyFailed` otherwise. -/
def Commit.patch {E : Type} (esum : E → Sum) (c : Commit E)
    (s : PartitionState E) : Except PatchOp (PartitionState E) := do
  let s1 ← c.changes.foldlM (applyChange esum) s
  if s1.statesum = c.statesum then .ok s1 else .error .PatchApplyFailed

/-- Modelled from the spec: `Commit::from_diff` builds the change list from
a parent and a child state — removes, inserts, replaces (elements compared
by sum) and new moved entries — returning none when the list is empty. -/
def Commit.from_diff {E : Type} (esum : E → Sum)
    (parent child : PartitionState E) : Option (Commit E) :=
  let removes := (parent.elts.filter
      (fun p => (mapLookup p.1 child.elts).isNone)).map
    (fun p => Change.remove p.1 (esum p.2))
  let inserts := (child.elts.filter
      (fun p => (mapLookup p.1 parent.elts).isNone)).map
    (fun p => Change.insert p.1 p.2)
  let replaces := parent.elts.filterMap (fun p =>
    match mapLookup p.1 child.elts with
    | some w =>
      if esum w != esum p.2 then some (Change.replace p.1 (esum p.2) w)
      else none
    | none => none)
  let moves := (child.moved.filter
      (fun q => mapLookup q.1 parent.moved != some q.2)).map
    (fun q => Change.noteMove q.1 q.2)
  let changes := removes ++ inserts ++ replaces ++ moves
  if changes.isEmpty then none
  else some { statesum := child.statesum, parents := child.parents,
              changes := changes }

/-- Snapshot-rotation counters (`SnapshotPolicy` in partition.rs). -/
structure SnapshotPolicy where
  commits : Nat
  edits : Nat
deriving DecidableEq, Repr

/-- Create a new instance (`SnapshotPolicy::new`). -/
def SnapshotPolicy.fresh : SnapshotPolicy := { commits := 0, edits := 0 }

/-- Report that a new snapshot is definitely needed
(`SnapshotPolicy::require`). -/
def SnapshotPolicy.require (p : SnapshotPolicy) : SnapshotPolicy :=
  { p with commits := 1000 }

/-- Report commits since the last event (`SnapshotPolicy::add_commits`). -/
def SnapshotPolicy.add_commits (p : SnapshotPolicy) (n : Nat) :
    SnapshotPolicy :=
  { p with commits := p.commits + n }

/-- Report edits since the last event (`SnapshotPolicy::add_edits`). -/
def SnapshotPolicy.add_edits (p : SnapshotPolicy) (n : Nat) :
    SnapshotPolicy :=
  { p with edits := p.edits + n }

/-- Report a fresh snapshot (`SnapshotPolicy::reset`). -/
def SnapshotPolicy.reset (_p : SnapshotPolicy) : SnapshotPolicy :=
  { commits := 0, edits := 0 }

/-- Return true when a snapshot should be written
(`SnapshotPolicy::snapshot`). -/
def SnapshotPolicy.snapshot (p : SnapshotPolicy) : Bool :=
  decide (p.commits * 5 + p.edits > 150)

/-- The partition engine state (partition.rs).  The boxed io provider is
passed to the persistence operations as an explicit oracle argument, and
`repo_name` is omitted since it only feeds the file headers the oracle
abstracts over. -/
structure Partition (E : Type) where
  part_id : Nat
  ss_num : Nat
  ss_policy : SnapshotPolicy
  states : List (PartitionState E)
  tips : List Sum
  unsaved : List (Commit E)
deriving Repr

/-- Lookup in the statesum-keyed state set (`HashIndexed::get`); the set is
represented as a list with distinct statesums. -/
def statesGet {E : Type} (states : List (PartitionState E)) (k : Sum) :
    Option (PartitionState E) :=
  states.find? (fun s => s.statesum == k)

/-- Key-membership test on the state set (`HashIndexed::contains`). -/
def statesContains {E : Type} (states : List (PartitionState E))
    (k : Sum) : Bool :=
  (statesGet states k).isSome

/-- Set insertion on the state set (`HashIndexed::insert`): a state whose
key is already present does not displace the stored state. -/
def statesInsert {E : Type} (states : List (PartitionState E))
    (s : PartitionState E) : List (PartitionState E) :=
  if statesContains states s.statesum then states else states ++ [s]

/-- Removal from the tip set (`HashSet::remove`); tips are kept as a
duplicate-free list. -/
def tipsRemove (tips : List Sum) (k : Sum) : List Sum :=
  tips.filter (fun t => t != k)

/-- Insertion into the tip set (`HashSet::insert`). -/
def tipsInsert (tips : List Sum) (k : Sum) : List Sum :=
  if tips.contains k then tips else tips ++ [k]

/-- Get the statesum of the tip (`Partition::tip_key`). -/
def Partition.tip_key {E : Type} (p : Partition E) : Except TipError Sum :=
  if p.tips.length = 1 then .ok (p.tips.headD Sum.zero)
  else if p.tips.isEmpty then .error .NotReady
  else .error .MergeRequired

/-- Add a paired commit and state (`Partition::add_pair`): bump the policy
counters, queue the commit, remove the state's parents from the tips,
insert its sum as a tip and insert the state. -/
def Partition.add_pair {E : Type} (p : Partition E) (c : Commit E)
    (st : PartitionState E) : Partition E :=
  { p with
    ss_policy := (p.ss_policy.add_commits 1).add_edits c.changes.length,
    unsaved := p.unsaved ++ [c],
    tips := tipsInsert (st.parents.foldl tipsRemove p.tips) st.statesum,
    states := statesInsert p.states st }

/-- Add a new commit and the state it produces (`Partition::push_commit`).
Returned with the post-partition since the Rust method takes `&mut self`. -/
def Partition.push_commit {E : Type} (esum : E → Sum) (p : Partition E)
    (c : Commit E) : Except PatchOp Unit × Partition E :=
  if statesContains p.states c.statesum then (.error .SumClash, p)
  else
    match c.parents.head?.bind (statesGet p.states) with
    | none => (.error .NoParent, p)
    | some parent =>
      match c.patch esum (parent.child_with_parents c.parents) with
      | .error e => (.error e, p)
      | .ok st => (.ok (), p.add_pair c st)

/-- Add a new state, committing the diff against its primary parent
(`Partition::push_state`). -/
def Partition.push_state {E : Type} (esum : E → Sum) (p : Partition E)
    (st : PartitionState E) : Except PatchOp Bool × Partition E :=
  if st.parents.length = 1 ∧ st.parents.headD Sum.zero = st.statesum then
    (.ok false, p)
  else
    match st.parents.head?.bind (statesGet p.states) with
    | none => (.error .NoParent, p)
    | some parent =>
      match Commit.from_diff esum parent st with
      | some c => (.ok true, p.add_pair c st)
      | none => (.ok false, p)

/-- Modelled from the spec: the uppercase hexadecimal digit of a value
below sixteen. -/
def hexDigit (n : Nat) : Char :=
  if n < 10 then Char.ofNat (48 + n) else Char.ofNat (55 + n)

/-- Modelled from the spec: the 32 big-endian bytes of a checksum. -/
def sumBytes (s : Sum) : List Nat :=
  (List.range 32).map (fun i => Nat.mod (Nat.div s (256 ^ (31 - i))) 256)

/-- Modelled from the spec: hexadecimal rendering of a checksum
(`Sum::as_string(false)`; sum.rs is not among the provided sources). -/
def Sum.as_string (s : Sum) : List Char :=
  (sumBytes s).foldr
    (fun b acc => hexDigit (b / 16) :: hexDigit (b % 16) :: acc) []

/-- Modelled from the spec: partial-key matching of a query against the
hexadecimal rendering (`Sum::matches_string`). -/
def Sum.matches_string (s : Sum) (q : List Char) : Bool :=
  q.isPrefixOf s.as_string

/-- The normalization performed by `state_from_string`: uppercase, then
spaces removed; the Rust String is represented as a character list. -/
def normQuery (q : List Char) : List Char :=
  (q.map Char.toUpper).filter (fun ch => ch != ' ')

/-- The scanning loop of `state_from_string` over the state set, carrying
the list of matching statesums found so far. -/
def sfsLoop {E : Type} (q : List Char) (matching : List Sum) :
    List (PartitionState E) → Except MatchError (List Sum)
  | [] => .ok matching
  | s :: rest =>
    let matching1 :=
      if s.statesum.matches_string q then matching ++ [s.statesum]
      else matching
    if matching1.length > 1 then
      .error (.MultiMatch (matching1.headD Sum.zero).as_string
        ((matching1.getD 1 Sum.zero)).as_string)
    else sfsLoop q matching1 rest

/-- Try to find a state given a string form of its key
(`Partition::state_from_string`).  The final lookup of the unique matching
sum is unwrapped in the source; the impossible none branch is mapped to
`NoMatch`. -/
def Partition.state_from_string {E : Type} (p : Partition E)
    (q : List Char) : Except MatchError (PartitionState E) :=
  match sfsLoop (normQuery q) [] p.states with
  | .error e => .error e
  | .ok matching =>
    if matching.length = 1 then
      match statesGet p.states (matching.headD Sum.zero) with
      | some s => .ok s
      | none => .error .NoMatch
    else .error .NoMatch

/-- Modelled from the spec: the boxed error envelope of the Result-typed
engine operations (error.rs is not among the provided sources); io failures
of the adapter are collapsed into `ioFail`. -/
inductive LibError where
  | ioNotFound
  | noStates
  | tipNotReady
  | tipMergeRequired
  | logNumTooHigh
  | ssNumTooHigh
  | ioFail
  | patchFailed (e : PatchOp)
  | noCommonAncestor
deriving DecidableEq, Repr

/-- Oracle describing the write-side behaviour of the PartitionIO adapter
during one engine call: which snapshot and log numbers already exist,
the log count per snapshot, and whether the header write, each successive
commit write, and the snapshot body write succeed. -/
structure DiskModel where
  ss_exists : Nat → Bool
  cl_exists : Nat → Nat → Bool
  ss_cl_len : Nat → Nat
  header_ok : Bool
  commit_ok : Nat → Bool
  snapshot_body_ok : Bool

/-- The file-number probing loop shared by `write` and `write_snapshot`:
starting at `n`, the first number not already occupied is used; after the
number passes one million the loop gives up (the source returns an
error). -/
def allocLoop (occupied : Nat → Bool) (n : Nat) : Option Nat :=
  if occupied n then
    (if n > 1000000 then none else allocLoop occupied (n + 1))
  else some n
termination_by 1000001 - n
decreasing_by simp_wf; omega

/-- Returns true when ready for use (`Partition::is_ready`). -/
def Partition.is_ready {E : Type} (p : Partition E) : Bool :=
  p.tips.length == 1

/-- Write a new snapshot from the tip (`Partition::write_snapshot`).  The
result is paired with the post-partition and with the artifact written
(snapshot number and state), `none` when nothing was written.  The source
unwraps the tip state after `tip_key` succeeds; the impossible missing
branch is mapped to `ioFail`. -/
def Partition.write_snapshot {E : Type} (d : DiskModel) (p : Partition E) :
    Except LibError Unit × Partition E × Option (Nat × PartitionState E) :=
  match p.tip_key with
  | .error .NotReady => (.error .tipNotReady, p, none)
  | .error .MergeRequired => (.error .tipMergeRequired, p, none)
  | .ok tk =>
    match allocLoop d.ss_exists (p.ss_num + 1) with
    | none => (.error .ssNumTooHigh, p, none)
    | some n =>
      if d.header_ok && d.snapshot_body_ok then
        match statesGet p.states tk with
        | some st =>
          (.ok (), { p with ss_num := n, ss_policy := p.ss_policy.reset },
            some (n, st))
        | none => (.error .ioFail, p, none)
      else (.error .ioFail, p, none)

/-- The commit-writing loop of `write`: the front commit is popped only
after it has been written successfully; on a failed write the loop stops,
leaving that commit and everything after it queued.  Returns the success
flag, the commits written in order and the remaining queue; `i` counts the
writes performed so far for the oracle. -/
def writeCommitsLoop {E : Type} (commit_ok : Nat → Bool) :
    Nat → List (Commit E) → Bool × List (Commit E) × List (Commit E)
  | _, [] => (true, [], [])
  | i, c :: rest =>
    if commit_ok i then
      let r := writeCommitsLoop commit_ok (i + 1) rest
      (r.1, c :: r.2.1, r.2.2)
    else (false, [], c :: rest)

/-- The maintenance step at the end of `write`: when not fast, ready and
the policy fires, write a snapshot; then report whether commits were
written. -/
def writeMaintain {E : Type} (d : DiskModel) (p : Partition E) (fast : Bool)
    (has_changes : Bool) (written : List (Commit E)) :
    Except LibError Bool × Partition E × List (Commit E) :=
  if !fast && (p.is_ready && p.ss_policy.snapshot) then
    match p.write_snapshot d with
    | (.ok _, p2, _) => (.ok has_changes, p2, written)
    | (.error e, p2, _) => (.error e, p2, written)
  else (.ok has_changes, p, written)

/-- Write all unsaved commits to a new log file (`Partition::write`).  The
result is paired with the post-partition and the list of commits written
during the call. -/
def Partition.write {E : Type} (d : DiskModel) (p : Partition E)
    (fast : Bool) : Except LibError Bool × Partition E × List (Commit E) :=
  if p.unsaved.isEmpty then writeMaintain d p fast false []
  else
    match allocLoop (d.cl_exists p.ss_num) (d.ss_cl_len p.ss_num) with
    | none => (.error .logNumTooHigh, p, [])
    | some _cl =>
      if d.header_ok then
        match writeCommitsLoop d.commit_ok 0 p.unsaved with
        | (true, written, rest) =>
          writeMaintain d { p with unsaved := rest } fast true written
        | (false, written, rest) =>
          (.error .ioFail, { p with unsaved := rest }, written)
      else (.error .ioFail, p, [])

/-- Oracle describing the read-side contents of the PartitionIO adapter:
the snapshot slot count, the parsed state of each existing snapshot, the
log count per snapshot and the parsed commits of each existing log.
Modelled from the spec where the codecs (the readwrite snapshot and log
modules) are not among the provided sources; read and parse failures,
which propagate unchanged, are not modelled. -/
structure LoadDisk (E : Type) where
  ss_len : Nat
  read_ss : Nat → Option (PartitionState E)
  ss_cl_len : Nat → Nat
  read_cl : Nat → Nat → Option (List (Commit E))

/-- The fast-mode snapshot scan of `load`: from the given slot downward,
stop at the first snapshot that exists, or at slot 0. -/
def scanSS {E : Type} (d : LoadDisk E) :
    Nat → Nat × Option (PartitionState E)
  | 0 => (0, d.read_ss 0)
  | n + 1 =>
    match d.read_ss (n + 1) with
    | some st => (n + 1, some st)
    | none => scanSS d n

/-- All commits found in the logs of one snapshot number, in log order
(the inner loop of the load_cl closure; missing logs are skipped). -/
def loadLogsOne {E : Type} (d : LoadDisk E) (ss : Nat) : List (Commit E) :=
  (List.range (d.ss_cl_len ss)).flatMap (fun cl => (d.read_cl ss cl).getD [])

/-- All commits of the logs for the snapshot numbers in `[lo, hi)`, in
snapshot-then-log order (the load_cl closure). -/
def loadLogs {E : Type} (d : LoadDisk E) (lo hi : Nat) : List (Commit E) :=
  (List.range' lo (hi - lo)).flatMap (fun ss => loadLogsOne d ss)

/-- Modelled from the spec: one pass of the log-replay engine.  Each queued
commit whose primary parent is a known state is applied to a clone of that
parent (the patch verifies the resulting statesum, failing with
`PatchApplyFailed`), the new state inserted and the tips updated; a commit
whose parent is unknown is deferred, in order.  The accumulated applied
edit count rides along. -/
def replayPass {E : Type} (esum : E → Sum) :
    List (PartitionState E) → List Sum → Nat → List (Commit E) →
    Except PatchOp
      (List (PartitionState E) × List Sum × Nat × List (Commit E))
  | states, tips, edits, [] => .ok (states, tips, edits, [])
  | states, tips, edits, c :: rest =>
    match c.parents.head?.bind (statesGet states) with
    | some parent =>
      match c.patch esum (parent.child_with_parents c.parents) with
      | .error e => .error e
      | .ok st =>
        replayPass esum (statesInsert states st)
          (tipsInsert (st.parents.foldl tipsRemove tips) st.statesum)
          (edits + c.changes.length) rest
    | none =>
      match replayPass esum states tips edits rest with
      | .error e => .error e
      | .ok (states2, tips2, edits2, deferred) =>
        .ok (states2, tips2, edits2, c :: deferred)

/-- Modelled from the spec: the replay engine repeats passes until a full
pass makes no progress; remaining commits are orphans, reported but not
fatal.  Each recursion strictly shrinks the queue, so queue-length fuel
suffices and the fuel-exhausted base case is unreachable from `replay`. -/
def replayRounds {E : Type} (esum : E → Sum) :
    Nat → List (PartitionState E) → List Sum → Nat → List (Commit E) →
    Except PatchOp (List (PartitionState E) × List Sum × Nat)
  | 0, states, tips, edits, _ => .ok (states, tips, edits)
  | fuel + 1, states, tips, edits, queue =>
    match replayPass esum states tips edits queue with
    | .error e => .error e
    | .ok (states2, tips2, edits2, deferred) =>
      if deferred.length < queue.length then
        replayRounds esum fuel states2 tips2 edits2 deferred
      else .ok (states2, tips2, edits2)

/-- Modelled from the spec: `LogReplay::replay` over a commit queue,
returning the updated state and tip sets with the applied edit count. -/
def replay {E : Type} (esum : E → Sum) (states : List (PartitionState E))
    (tips : List Sum) (queue : List (Commit E)) :
    Except PatchOp (List (PartitionState E) × List Sum × Nat) :=
  replayRounds esum (queue.length + 1) states tips 0 queue

/-- The policy value after a fast-mode load: the commit and edit counters
are bumped, then `require()` overrides them when the newest snapshot found
was not in the final slot. -/
def loadFastPolicy (pol : SnapshotPolicy) (ncommits nedits num final : Nat) :
    SnapshotPolicy :=
  if num < final then ((pol.add_commits ncommits).add_edits nedits).require
  else (pol.add_commits ncommits).add_edits nedits

/-- The remainder of fast-mode `load` after the snapshot scan: collect the
logs from the found slot upward, bump the commit counter, seed the genesis
state when nothing is loaded, replay, set `ss_num` to the final slot and
force the policy when the newest snapshot was not in the final slot.  On a
replay error the partially replayed states are not retained (the spec does
not define them). -/
def loadFastTail {E : Type} (esum : E → Sum) (d : LoadDisk E)
    (p : Partition E) (num : Nat) (states1 : List (PartitionState E))
    (tips1 : List Sum) : Except LibError Unit × Partition E :=
  match replay esum
      (if tips1.isEmpty then
        statesInsert states1 (PartitionState.new E p.part_id)
      else states1)
      (if tips1.isEmpty then
        tipsInsert tips1 (PartitionState.new E p.part_id).statesum
      else tips1)
      (loadLogs d num d.ss_len) with
  | .error e =>
    (.error (.patchFailed e),
      { p with ss_policy :=
          p.ss_policy.add_commits (loadLogs d num d.ss_len).length })
  | .ok (states3, tips3, edits) =>
    if tips3.isEmpty then
      (.error .noStates,
        { p with ss_num := d.ss_len - 1,
                 ss_policy := loadFastPolicy p.ss_policy
                   (loadLogs d num d.ss_len).length edits num (d.ss_len - 1),
                 states := states3, tips := tips3 })
    else
      (.ok (),
        { p with ss_num := d.ss_len - 1,
                 ss_policy := loadFastPolicy p.ss_policy
                   (loadLogs d num d.ss_len).length edits num (d.ss_len - 1),
                 states := states3, tips := tips3 })

/-- The all-history loop of `load`: snapshots ascending, each snapshot
loaded then its logs replayed; the commit and edit counts of the last
iteration are carried for the policy (as in the source, earlier counts are
overwritten). -/
def loadAllLoop {E : Type} (esum : E → Sum) (d : LoadDisk E) :
    List Nat →
    List (PartitionState E) × List Sum × Nat × Nat →
    Except PatchOp (List (PartitionState E) × List Sum × Nat × Nat)
  | [], acc => .ok acc
  | ss :: rest, (states, tips, _, _) =>
    match
      (match d.read_ss ss with
       | some st => (statesInsert states st, tipsInsert tips st.statesum)
       | none => (states, tips)) with
    | (states1, tips1) =>
      match replay esum states1 tips1 (loadLogsOne d ss) with
      | .error e => .error e
      | .ok (states2, tips2, edits) =>
        loadAllLoop esum d rest
          (states2, tips2, (loadLogsOne d ss).length, edits)

/-- Load either all history or only what is needed for the latest state
(`Partition::load`).  The result is paired with the post-partition. -/
def Partition.load {E : Type} (esum : E → Sum) (d : LoadDisk E)
    (p : Partition E) (all_history : Bool) :
    Except LibError Unit × Partition E :=
  if d.ss_len = 0 then (.error .ioNotFound, p)
  else if all_history then
    match loadAllLoop esum d (List.range d.ss_len)
        (p.states, p.tips, 0, 0) with
    | .error e => (.error (.patchFailed e), p)
    | .ok (states2, tips2, nc, ne) =>
      let pol := (p.ss_policy.add_commits nc).add_edits ne
      let p2 : Partition E :=
        { p with ss_num := d.ss_len - 1, ss_policy := pol,
                 states := states2, tips := tips2 }
      if p2.tips.isEmpty then (.error .noStates, p2) else (.ok (), p2)
  else
    match scanSS d (d.ss_len - 1) with
    | (num, some st) =>
      loadFastTail esum d p num (statesInsert p.states st)
        (tipsInsert p.tips st.statesum)
    | (num, none) => loadFastTail esum d p num p.states p.tips

/-- Open an unloaded partition (`Partition::open`; the io provider is the
oracle passed to the operations and repo_name is omitted). -/
def Partition.openPart (E : Type) (part_id : Nat) : Partition E :=
  { part_id := part_id, ss_num := 0, ss_policy := SnapshotPolicy.fresh,
    states := [], tips := [], unsaved := [] }

/-- Concrete read-side oracle with one snapshot slot and no files at all;
used by the C5 witness. -/
def emptyLoadDisk : LoadDisk Nat :=
  { ss_len := 1, read_ss := fun _ => none, ss_cl_len := fun _ => 0,
    read_cl := fun _ _ => none }

/-- Concrete write-side oracle on which every io operation succeeds and no
files exist yet; used by witnesses. -/
def cleanDisk : DiskModel :=
  { ss_exists := fun _ => false, cl_exists := fun _ _ => false,
    ss_cl_len := fun _ => 0, header_ok := true,
    commit_ok := fun _ => true, snapshot_body_ok := true }

/-- The parent sums pushed for a popped key in the common-ancestor search:
the parents of the state stored under that key, nothing when no state is
stored (`if let Some(state) = self.states.get(k)`). -/
def lcaParents {E : Type} (states : List (PartitionState E)) (k : Sum) :
    List Sum :=
  match statesGet states k with
  | some s => s.parents
  | none => []

/-- Fuel bound for the common-ancestor loops: the total number of parent
references in the state set. -/
def totalParents {E : Type} (states : List (PartitionState E)) : Nat :=
  (states.map (fun s => s.parents.length)).sum

/-- The first loop of `latest_common_ancestor`: collect every ancestor of
the start key into the visited list.  The deque is used stack-like in the
source (push_back paired with pop_back), represented here with the back at
the list head, so pushing the parents in order prepends them reversed.
Fuel-exhaustion returns none; `totalParents states + 1` fuel is proven
sufficient. -/
def lcaLoop1 {E : Type} (states : List (PartitionState E)) :
    Nat → List Sum → List Sum → Option (List Sum)
  | _, a1, [] => some a1
  | 0, _, _ :: _ => none
  | fuel + 1, a1, k :: stack =>
    if k ∈ a1 then lcaLoop1 states fuel a1 stack
    else lcaLoop1 states fuel (k :: a1) ((lcaParents states k).reverse ++ stack)

/-- The second loop of `latest_common_ancestor`: traverse the ancestors of
the second key in the same stack order, returning the first one found in
the first key's ancestor set.  The source inserts the key into its visited
set before the membership test on the first set; the results coincide and
the early return discards the visited set. -/
def lcaLoop2 {E : Type} (states : List (PartitionState E)) (a1 : List Sum) :
    Nat → List Sum → List Sum → Option (Option Sum)
  | _, _, [] => some none
  | 0, _, _ :: _ => none
  | fuel + 1, a2, k :: stack =>
    if k ∈ a2 then lcaLoop2 states a1 fuel a2 stack
    else if k ∈ a1 then some (some k)
    else lcaLoop2 states a1 fuel (k :: a2)
      ((lcaParents states k).reverse ++ stack)

/-- Find a latest common ancestor of two keys
(`Partition::latest_common_ancestor`).  The fuel-exhaustion branches are
unreachable (the sufficiency lemmas) and are mapped to the search failure
error. -/
def latest_common_ancestor {E : Type} (states : List (PartitionState E))
    (k1 k2 : Sum) : Except LibError Sum :=
  match lcaLoop1 states (totalParents states + 1) [] [k1] with
  | none => .error .noCommonAncestor
  | some a1 =>
    match lcaLoop2 states a1 (totalParents states + 1) [] [k2] with
    | none => .error .noCommonAncestor
    | some (some k) => .ok k
    | some none => .error .noCommonAncestor

/-- Ancestry through parent sums: the second key is reachable from the
first by repeatedly following the parents of stored states (reflexive). -/
inductive Anc {E : Type} (states : List (PartitionState E)) (k : Sum) :
    Sum → Prop where
  | refl : Anc states k k
  | step (j p : Sum) (s : PartitionState E) : Anc states k j →
      statesGet states j = some s → p ∈ s.parents → Anc states k p

/-- The total parent count of the states whose key is not yet visited;
the termination measure of the common-ancestor loops. -/
def pendingWeight {E : Type} (states : List (PartitionState E))
    (visited : List Sum) : Nat :=
  ((states.filter (fun s => !(decide (s.statesum ∈ visited)))).map
    (fun s => s.parents.length)).sum

/-- Breadth-first variant of the second search loop, following the claim's
words (the queue is popped at the front while parents are pushed at the
back); used to exhibit that the source's stack traversal is not
breadth-first. -/
def lcaLoop2BFS {E : Type} (states : List (PartitionState E))
    (a1 : List Sum) : Nat → List Sum → List Sum → Option (Option Sum)
  | _, _, [] => some none
  | 0, _, _ :: _ => none
  | fuel + 1, a2, k :: queue =>
    if k ∈ a2 then lcaLoop2BFS states a1 fuel a2 queue
    else if k ∈ a1 then some (some k)
    else lcaLoop2BFS states a1 fuel (k :: a2) (queue ++ lcaParents states k)

/-- The common-ancestor search as the claim describes it, with the second
phase breadth-first. -/
def bfsLCA {E : Type} (states : List (PartitionState E)) (k1 k2 : Sum) :
    Except LibError Sum :=
  match lcaLoop1 states (totalParents states + 1) [] [k1] with
  | none => .error .noCommonAncestor
  | some a1 =>
    match lcaLoop2BFS states a1 (totalParents states + 1) [] [k2] with
    | none => .error .noCommonAncestor
    | some (some k) => .ok k
    | some none => .error .noCommonAncestor

/-- Concrete state set for the C8 counterexample: state 1 has parents 10
and 11, state 2 has parents 10 and 3, state 3 has parent 11; the sums 10
and 11 have no stored state. -/
def lcaStates : List (PartitionState Nat) :=
  [{ part_id := 1, parents := [10, 11], statesum := 1, elts := [],
     moved := [] },
   { part_id := 1, parents := [10, 3], statesum := 2, elts := [],
     moved := [] },
   { part_id := 1, parents := [11], statesum := 3, elts := [],
     moved := [] }]

/-- Concrete freshly-created partition of partition id 1, holding only the
genesis state; used by witnesses. -/
def genesisPartition : Partition Nat :=
  { part_id := 1, ss_num := 0, ss_policy := SnapshotPolicy.fresh,
    states := [PartitionState.new Nat 1], tips := [Sum.zero], unsaved := [] }

/-- Concrete commit inserting element 7 at id 2^24+3 onto the genesis
state; used by the C2 witness. -/
def insertCommit : Commit Nat :=
  { statesum := 7, parents := [Sum.zero],
    changes := [Change.insert (2 ^ 24 + 3) 7] }

/-- The state obtained by patching `insertCommit` onto the genesis state. -/
def insertedState : PartitionState Nat :=
  { part_id := 1, parents := [Sum.zero], statesum := 7,
    elts := [(2 ^ 24 + 3, 7)], moved := [] }

/-- Concrete state holding one element of sum 5, a child of the genesis
state; used by the C3 counterexample. -/
def oneEltState : PartitionState Nat :=
  { part_id := 1, parents := [Sum.zero], statesum := 5,
    elts := [(2 ^ 24 + 1, 5)], moved := [] }

/-- Concrete partition containing the genesis state and `oneEltState`, the
latter being the single tip. -/
def twoStatePartition : Partition Nat :=
  { part_id := 1, ss_num := 0, ss_policy := SnapshotPolicy.fresh,
    states := [PartitionState.new Nat 1, oneEltState], tips := [5],
    unsaved := [] }

/-- Child of `oneEltState` with its element removed; its statesum is the
zero sum of the genesis state already present in `twoStatePartition`. -/
def clashState : PartitionState Nat :=
  { part_id := 1, parents := [5], statesum := Sum.zero, elts := [],
    moved := [] }

/-- The commit `from_diff` derives between `oneEltState` and `clashState`. -/
def clashCommit : Commit Nat :=
  { statesum := Sum.zero, parents := [5],
    changes := [Change.remove (2 ^ 24 + 1) 5] }

/-- Concrete partition with one queued commit; used by the C4 witness. -/
def queuedPartition : Partition Nat :=
  { part_id := 1, ss_num := 0, ss_policy := SnapshotPolicy.fresh,
    states := [PartitionState.new Nat 1, insertedState], tips := [7],
    unsaved := [insertCommit] }

theorem Sum.permute_comm (a b : Sum) : a.permute b = b.permute a :=
  Nat.xor_comm a b

theorem Sum.permute_assoc (a b c : Sum) :
    (a.permute b).permute c = a.permute (b.permute c) :=
  Nat.xor_assoc a b c

theorem Sum.permute_zero (a : Sum) : a.permute Sum.zero = a :=
  Nat.xor_zero a

theorem Sum.zero_permute (a : Sum) : Sum.zero.permute a = a :=
  Nat.zero_xor a

theorem Sum.permute_self (a : Sum) : a.permute a = Sum.zero :=
  Nat.xor_self a

theorem Sum.permute_cancel (a b : Sum) : (a.permute b).permute b = a := by
  rw [Sum.permute_assoc, Sum.permute_self, Sum.permute_zero]

theorem eltsSum_mapInsert_absent {E : Type} (esum : E → Sum) (k : Nat)
    (v : E) (l : List (Nat × E)) (h : mapLookup k l = none) :
    eltsSum esum (mapInsert k v l) = (eltsSum esum l).permute (esum v) := by
  induction l with
  | nil => simp [mapInsert, eltsSum, Sum.zero_permute, Sum.permute_zero]
  | cons p t ih =>
    by_cases hk : p.1 = k
    · simp [mapLookup, hk] at h
    · simp only [mapLookup, hk, if_false, if_neg hk] at h ⊢
      simp only [mapInsert, if_neg hk, eltsSum, ih h]
      rw [Sum.permute_assoc]

theorem eltsSum_mapInsert_present {E : Type} (esum : E → Sum) (k : Nat)
    (v old : E) (l : List (Nat × E)) (h : mapLookup k l = some old) :
    eltsSum esum (mapInsert k v l)
      = ((eltsSum esum l).permute (esum old)).permute (esum v) := by
  induction l with
  | nil => simp [mapLookup] at h
  | cons p t ih =>
    by_cases hk : p.1 = k
    · simp only [mapLookup, hk, if_true, Option.some.injEq] at h
      subst h
      simp only [mapInsert, hk, if_true, eltsSum]
      rw [Sum.permute_comm (esum p.2) (eltsSum esum t), Sum.permute_cancel,
        Sum.permute_comm]
    · simp only [mapLookup, hk, if_false] at h
      simp only [mapInsert, if_neg hk, eltsSum, ih h]
      rw [Sum.permute_assoc, Sum.permute_assoc, Sum.permute_assoc]

theorem eltsSum_mapRemove {E : Type} (esum : E → Sum) (k : Nat) (old : E)
    (l : List (Nat × E)) (h : mapLookup k l = some old) :
    eltsSum esum (mapRemove k l) = (eltsSum esum l).permute (esum old) := by
  induction l with
  | nil => simp [mapLookup] at h
  | cons p t ih =>
    by_cases hk : p.1 = k
    · simp only [mapLookup, hk, if_true, Option.some.injEq] at h
      subst h
      simp only [mapRemove, hk, if_true, eltsSum]
      rw [Sum.permute_comm (esum p.2) (eltsSum esum t), Sum.permute_cancel]
    · simp only [mapLookup, hk, if_false] at h
      simp only [mapRemove, if_neg hk, eltsSum, ih h]
      rw [Sum.permute_assoc]

theorem stepOp_sumInv {E : Type} (esum : E → Sum) (s : PartitionState E)
    (op : EltOp E) (h : sumInv esum s) : sumInv esum (stepOp esum s op) := by
  cases op with
  | insertWithId id elt =>
    simp only [stepOp, PartitionState.insert_with_id]
    by_cases hp : eltPartId id ≠ s.part_id
    · simpa [hp]
    · cases hl : mapLookup id s.elts with
      | some v => simp [hp, hl, h]
      | none =>
        simp only [hp, if_false, hl, Option.isSome_none, Bool.false_eq_true,
          if_false, sumInv]
        rw [eltsSum_mapInsert_absent esum id elt s.elts hl, h]
  | replaceRc id elt =>
    simp only [stepOp, PartitionState.replace_rc]
    cases hl : mapLookup id s.elts with
    | none =>
      simp only [sumInv]
      rw [eltsSum_mapInsert_absent esum id elt s.elts hl, h]
    | some old =>
      simp only [sumInv]
      rw [eltsSum_mapInsert_present esum id elt old s.elts hl, h]
      rw [Sum.permute_assoc, Sum.permute_assoc,
        Sum.permute_comm (esum elt) (esum old)]
  | remove id =>
    simp only [stepOp, PartitionState.remove]
    cases hl : mapLookup id s.elts with
    | none => simpa [hl]
    | some old =>
      simp only [sumInv]
      rw [eltsSum_mapRemove esum id old s.elts hl, h]

/-- C1: every state reachable from `PartitionState::new` by any sequence of
the mutating operations `insert_with_id`, `replace_rc` and `remove` has a
statesum equal to the permute-fold of the sums of its stored elements. -/
theorem C1_statesum_invariant {E : Type} (esum : E → Sum) (part_id : Nat)
    (ops : List (EltOp E)) :
    (runOps esum part_id ops).statesum
      = eltsSum esum (runOps esum part_id ops).elts := by
  suffices h : ∀ s : PartitionState E, sumInv esum s →
      sumInv esum (ops.foldl (stepOp esum) s) by
    exact h (PartitionState.new E part_id) rfl
  induction ops with
  | nil => intro s hs; exact hs
  | cons op t ih =>
    intro s hs
    exact ih (stepOp esum s op) (stepOp_sumInv esum s op hs)

theorem insert_with_id_parents {E : Type} (esum : E → Sum)
    (s : PartitionState E) (id : Nat) (elt : E) :
    ((s.insert_with_id esum id elt).2).parents = s.parents := by
  unfold PartitionState.insert_with_id
  split
  · rfl
  · split <;> rfl

theorem replace_rc_parents {E : Type} (esum : E → Sum)
    (s : PartitionState E) (id : Nat) (elt : E) :
    ((s.replace_rc esum id elt).2).parents = s.parents := by
  unfold PartitionState.replace_rc
  cases mapLookup id s.elts <;> rfl

theorem remove_parents {E : Type} (esum : E → Sum)
    (s : PartitionState E) (id : Nat) :
    ((s.remove esum id).2).parents = s.parents := by
  unfold PartitionState.remove
  cases mapLookup id s.elts <;> rfl

theorem applyChange_parents {E : Type} (esum : E → Sum)
    (s s1 : PartitionState E) (ch : Change E)
    (h : applyChange esum s ch = .ok s1) : s1.parents = s.parents := by
  cases ch with
  | insert id elt =>
    have hp := insert_with_id_parents esum s id elt
    rcases h1 : s.insert_with_id esum id elt with ⟨r, s2⟩
    rw [h1] at hp
    cases r with
    | ok v =>
      simp only [applyChange, h1, Except.ok.injEq] at h
      rw [← h]; exact hp
    | error e => simp [applyChange, h1] at h
  | remove id prior =>
    have hp := remove_parents esum s id
    rcases h1 : s.remove esum id with ⟨r, s2⟩
    rw [h1] at hp
    cases r with
    | ok v =>
      simp only [applyChange, h1, Except.ok.injEq] at h
      rw [← h]; exact hp
    | error e => simp [applyChange, h1] at h
  | replace id prior elt =>
    have hp := replace_rc_parents esum s id elt
    rcases h1 : s.replace_rc esum id elt with ⟨r, s2⟩
    rw [h1] at hp
    cases r with
    | ok v =>
      simp only [applyChange, h1, Except.ok.injEq] at h
      rw [← h]; exact hp
    | error e => simp [applyChange, h1] at h
  | noteMove id nid =>
    simp only [applyChange, Except.ok.injEq] at h
    rw [← h]; rfl

theorem foldlM_applyChange_parents {E : Type} (esum : E → Sum) :
    ∀ (l : List (Change E)) (s s1 : PartitionState E),
    List.foldlM (applyChange esum) s l = .ok s1 → s1.parents = s.parents := by
  intro l
  induction l with
  | nil =>
    intro s s1 h
    simp only [List.foldlM_nil, pure, Except.pure, Except.ok.injEq] at h
    rw [h]
  | cons a t ih =>
    intro s s1 h
    rw [List.foldlM_cons] at h
    cases h2 : applyChange esum s a with
    | error e => rw [h2] at h; simp [Bind.bind, Except.bind] at h
    | ok s2 =>
      rw [h2] at h
      simp only [Bind.bind, Except.bind] at h
      exact (ih s2 s1 h).trans (applyChange_parents esum s s2 a h2)

theorem patch_parents {E : Type} (esum : E → Sum) (c : Commit E)
    (s s1 : PartitionState E) (h : c.patch esum s = .ok s1) :
    s1.parents = s.parents := by
  unfold Commit.patch at h
  cases h2 : List.foldlM (applyChange esum) s c.changes with
  | error e => rw [h2] at h; simp [Bind.bind, Except.bind] at h
  | ok s2 =>
    rw [h2] at h
    simp only [Bind.bind, Except.bind] at h
    by_cases hc : s2.statesum = c.statesum
    · simp only [hc, if_true, Except.ok.injEq] at h
      rw [← h]; exact foldlM_applyChange_parents esum c.changes s s2 h2
    · simp [hc] at h

theorem patch_statesum {E : Type} (esum : E → Sum) (c : Commit E)
    (s s1 : PartitionState E) (h : c.patch esum s = .ok s1) :
    s1.statesum = c.statesum := by
  unfold Commit.patch at h
  cases h2 : List.foldlM (applyChange esum) s c.changes with
  | error e => rw [h2] at h; simp [Bind.bind, Except.bind] at h
  | ok s2 =>
    rw [h2] at h
    simp only [Bind.bind, Except.bind] at h
    by_cases hc : s2.statesum = c.statesum
    · simp only [hc, if_true, Except.ok.injEq] at h
      rw [← h]; exact hc
    · simp [hc] at h

theorem mem_tipsRemove (tips : List Sum) (k t : Sum) :
    t ∈ tipsRemove tips k ↔ t ∈ tips ∧ t ≠ k := by
  simp [tipsRemove, List.mem_filter, bne_iff_ne]

theorem mem_foldl_tipsRemove (prs : List Sum) :
    ∀ (tips : List Sum) (t : Sum),
    t ∈ prs.foldl tipsRemove tips ↔ t ∈ tips ∧ t ∉ prs := by
  induction prs with
  | nil => intro tips t; simp
  | cons a rest ih =>
    intro tips t
    rw [List.foldl_cons, ih, mem_tipsRemove, List.mem_cons]
    constructor
    · rintro ⟨⟨h1, h2⟩, h3⟩
      exact ⟨h1, by rintro (rfl | hm) <;> [exact h2 rfl; exact h3 hm]⟩
    · rintro ⟨h1, h2⟩
      exact ⟨⟨h1, fun he => h2 (Or.inl he)⟩, fun hm => h2 (Or.inr hm)⟩

theorem mem_tipsInsert (tips : List Sum) (k t : Sum) :
    t ∈ tipsInsert tips k ↔ t ∈ tips ∨ t = k := by
  unfold tipsInsert
  by_cases h : tips.contains k
  · rw [if_pos h]
    have hk : k ∈ tips := by
      rcases List.contains_iff_exists_mem_beq.1 h with ⟨x, hx, hbeq⟩
      rwa [show k = x from eq_of_beq hbeq]
    constructor
    · exact Or.inl
    · rintro (ht | rfl) <;> [exact ht; exact hk]
  · rw [if_neg h]
    simp [List.mem_append]

theorem statesInsert_not_contained {E : Type}
    (states : List (PartitionState E)) (s : PartitionState E)
    (h : statesContains states s.statesum = false) :
    statesInsert states s = states ++ [s] := by
  simp [statesInsert, h]

theorem mapLookup_mapInsert_self {α : Type} (k : Nat) (v : α)
    (l : List (Nat × α)) : mapLookup k (mapInsert k v l) = some v := by
  induction l with
  | nil => simp [mapInsert, mapLookup]
  | cons p t ih =>
    by_cases hk : p.1 = k
    · simp [mapInsert, hk, mapLookup]
    · simp [mapInsert, hk, mapLookup, ih]

/-- C6: when the id is not a key of `elts`, `replace_rc` returns
`Err(NotFound)` yet still mutates the state: the element is inserted and the
statesum permuted with its sum, so `NotFound` does not imply the state is
unchanged. -/
theorem C6_replace_rc_mutates_on_not_found {E : Type} (esum : E → Sum)
    (s : PartitionState E) (id : Nat) (elt : E)
    (h : mapLookup id s.elts = none) :
    s.replace_rc esum id elt
      = (.error .NotFound,
          { s with statesum := s.statesum.permute (esum elt),
                   elts := mapInsert id elt s.elts })
    ∧ mapLookup id (s.replace_rc esum id elt).2.elts = some elt := by
  constructor
  · simp [PartitionState.replace_rc, h]
  · simp [PartitionState.replace_rc, h, mapLookup_mapInsert_self]

/-- Witness for C6 at a concrete state: replacing at a free id of the empty
state reports `NotFound` but inserts the element. -/
theorem C6_witness :
    mapLookup (2 ^ 24 + 1) (PartitionState.new Nat 1).elts = none
    ∧ (PartitionState.new Nat 1).replace_rc (fun e => e) (2 ^ 24 + 1) 5
        = (.error .NotFound,
            { PartitionState.new Nat 1 with
                statesum := Sum.permute Sum.zero 5,
                elts := mapInsert (2 ^ 24 + 1) 5 [] }) :=
  ⟨rfl,
    (C6_replace_rc_mutates_on_not_found (fun e => e)
      (PartitionState.new Nat 1) (2 ^ 24 + 1) 5 rfl).1⟩

/-- C7 counterexample: from the fresh state of partition 1, record a
forwarding entry for id `2^24` with `set_move`, then `insert_with_id` at the
very same id succeeds, leaving the id a key of both `elts` and `moved` —
refuting the claim that `insert_with_id` never succeeds for an id that is a
key of `moved` and that every operation preserves disjointness. -/
theorem C7_counterexample :
    (((PartitionState.new Nat 1).set_move (2 ^ 24) (2 ^ 25)).insert_with_id
        (fun e => e) (2 ^ 24) 7).1 = .ok (2 ^ 24)
    ∧ mapLookup (2 ^ 24)
        ((((PartitionState.new Nat 1).set_move (2 ^ 24)
          (2 ^ 25)).insert_with_id (fun e => e) (2 ^ 24) 7).2).elts = some 7
    ∧ mapLookup (2 ^ 24)
        ((((PartitionState.new Nat 1).set_move (2 ^ 24)
          (2 ^ 25)).insert_with_id (fun e => e) (2 ^ 24) 7).2).moved
        = some (2 ^ 25) := by
  refine ⟨?_, ?_, ?_⟩ <;>
    simp [PartitionState.set_move, PartitionState.insert_with_id,
      PartitionState.new, eltPartId, mapInsert, mapLookup]

/-- C7 amended: `insert_with_id` consults only `elts` — with a matching
partition id it succeeds whenever the id is not a live key of `elts`, even
when the id is a key of `moved`; and `set_move` records its forwarding entry
unconditionally, leaving `elts` untouched, even when the id is a live key of
`elts`.  Disjointness of the two key sets is therefore not enforced by
these operations. -/
theorem C7_amended {E : Type} (esum : E → Sum) (s : PartitionState E)
    (id nid : Nat) (elt : E) (hpart : eltPartId id = s.part_id)
    (hfree : mapLookup id s.elts = none) :
    (s.insert_with_id esum id elt).1 = .ok id
    ∧ mapLookup id ((s.insert_with_id esum id elt).2).elts = some elt
    ∧ ((s.insert_with_id esum id elt).2).moved = s.moved
    ∧ (s.set_move id nid).elts = s.elts
    ∧ mapLookup id ((s.set_move id nid)).moved = some nid := by
  refine ⟨?_, ?_, ?_, ?_, ?_⟩ <;>
    simp [PartitionState.insert_with_id, PartitionState.set_move, hpart,
      hfree, mapLookup_mapInsert_self]

/-- Witness for the amended C7 at a concrete state carrying both a moved
entry and a live element. -/
theorem C7_amended_witness :
    (eltPartId (2 ^ 24) = 1 ∧ mapLookup (2 ^ 24) ([] : List (Nat × Nat)) = none)
    ∧ ((((PartitionState.new Nat 1).set_move (2 ^ 24)
          (2 ^ 25)).insert_with_id (fun e => e) (2 ^ 24) 7).1 = .ok (2 ^ 24)) := by
  refine ⟨⟨by decide, rfl⟩, ?_⟩
  exact (C7_amended (fun e => e)
    ((PartitionState.new Nat 1).set_move (2 ^ 24) (2 ^ 25))
    (2 ^ 24) (2 ^ 25) 7 (by decide) rfl).1

/-- C2: push_commit rejects `SumClash` when the commit statesum is already
a key of `states` (partition unchanged), rejects `NoParent` when the first
parent sum is not in `states` (partition unchanged), and otherwise — when
the changes apply to a clone of the parent — inserts the resulting state,
removes the new state's parents from the tips, inserts its sum as a tip and
appends the commit to the unsaved queue. -/
theorem C2_push_commit_behaviour {E : Type} (esum : E → Sum)
    (p : Partition E) (c : Commit E) :
    (statesContains p.states c.statesum = true →
      p.push_commit esum c = (.error .SumClash, p))
    ∧ (statesContains p.states c.statesum = false →
      c.parents.head?.bind (statesGet p.states) = none →
      p.push_commit esum c = (.error .NoParent, p))
    ∧ (∀ parent st, statesContains p.states c.statesum = false →
      c.parents.head?.bind (statesGet p.states) = some parent →
      c.patch esum (parent.child_with_parents c.parents) = .ok st →
      (p.push_commit esum c).1 = .ok ()
      ∧ (p.push_commit esum c).2.states = p.states ++ [st]
      ∧ st.statesum = c.statesum
      ∧ (∀ t : Sum, t ∈ (p.push_commit esum c).2.tips ↔
          ((t ∈ p.tips ∧ t ∉ c.parents) ∨ t = c.statesum))
      ∧ (p.push_commit esum c).2.unsaved = p.unsaved ++ [c]) := by
  refine ⟨?_, ?_, ?_⟩
  · intro h
    simp [Partition.push_commit, h]
  · intro h1 h2
    simp [Partition.push_commit, h1, h2]
  · intro parent st h1 h2 h3
    have hres : p.push_commit esum c = (.ok (), p.add_pair c st) := by
      simp [Partition.push_commit, h1, h2, h3]
    have hsum : st.statesum = c.statesum := patch_statesum esum c _ st h3
    have hpar : st.parents = c.parents := by
      have := patch_parents esum c _ st h3
      simpa [PartitionState.child_with_parents] using this
    refine ⟨by rw [hres], ?_, hsum, ?_, by rw [hres]; rfl⟩
    · rw [hres]
      show statesInsert p.states st = _
      exact statesInsert_not_contained p.states st (by rw [hsum]; exact h1)
    · intro t
      rw [hres]
      show t ∈ tipsInsert (st.parents.foldl tipsRemove p.tips) st.statesum ↔ _
      rw [mem_tipsInsert, mem_foldl_tipsRemove, hpar, hsum]

/-- Witness for C2 at a concrete partition: pushing a commit that inserts
one element onto the genesis state succeeds and queues the commit. -/
theorem C2_witness :
    statesContains genesisPartition.states insertCommit.statesum = false
    ∧ insertCommit.parents.head?.bind (statesGet genesisPartition.states)
        = some (PartitionState.new Nat 1)
    ∧ insertCommit.patch (fun e => e)
        ((PartitionState.new Nat 1).child_with_parents insertCommit.parents)
        = .ok insertedState
    ∧ (genesisPartition.push_commit (fun e => e) insertCommit).1 = .ok ()
    ∧ (genesisPartition.push_commit (fun e => e) insertCommit).2.unsaved
        = genesisPartition.unsaved ++ [insertCommit] := by
  have h1 : statesContains genesisPartition.states insertCommit.statesum
      = false := rfl
  have h2 : insertCommit.parents.head?.bind (statesGet genesisPartition.states)
      = some (PartitionState.new Nat 1) := rfl
  have h3 : insertCommit.patch (fun e => e)
      ((PartitionState.new Nat 1).child_with_parents insertCommit.parents)
      = .ok insertedState := rfl
  have main := (C2_push_commit_behaviour (fun e => e) genesisPartition
    insertCommit).2.2 (PartitionState.new Nat 1) insertedState h1 h2 h3
  exact ⟨h1, h2, h3, main.1, main.2.2.2.2⟩

/-- C3 counterexample: pushing `clashState` — whose statesum equals the
genesis sum already present in `twoStatePartition.states` — returns
`Ok(true)` rather than `Err(SumClash)`: push_state performs no sum-clash
check, refuting the claim that it behaves as push_commit in that case. -/
theorem C3_counterexample :
    statesContains twoStatePartition.states clashState.statesum = true
    ∧ (twoStatePartition.push_state (fun e => e) clashState).1 = .ok true
    ∧ (twoStatePartition.push_state (fun e => e) clashState).1
        ≠ .error PatchOp.SumClash := by
  refine ⟨rfl, rfl, fun h => ?_⟩
  rw [show (twoStatePartition.push_state (fun e => e) clashState).1
      = .ok true from rfl] at h
  exact Except.noConfusion h

/-- C3 amended: push_state returns `Ok(false)` leaving the partition
unchanged when the state's single parent sum equals its own statesum, or
when the computed diff is empty; returns `Err(NoParent)` when (outside that
shortcut) the primary parent is not in `states`; and otherwise adds the
commit built from the diff together with the passed state via add_pair and
returns `Ok(true)` — performing no sum-clash check, so a state whose sum
already exists in `states` is accepted, unlike push_commit. -/
theorem C3_push_state_amended {E : Type} (esum : E → Sum) (p : Partition E)
    (st : PartitionState E) :
    ((st.parents.length = 1 ∧ st.parents.headD Sum.zero = st.statesum) →
      p.push_state esum st = (.ok false, p))
    ∧ (¬(st.parents.length = 1 ∧ st.parents.headD Sum.zero = st.statesum) →
      st.parents.head?.bind (statesGet p.states) = none →
      p.push_state esum st = (.error .NoParent, p))
    ∧ (∀ parent c,
      ¬(st.parents.length = 1 ∧ st.parents.headD Sum.zero = st.statesum) →
      st.parents.head?.bind (statesGet p.states) = some parent →
      Commit.from_diff esum parent st = some c →
      p.push_state esum st = (.ok true, p.add_pair c st)
      ∧ (p.push_state esum st).2.unsaved = p.unsaved ++ [c]
      ∧ (∀ t : Sum, t ∈ (p.push_state esum st).2.tips ↔
          ((t ∈ p.tips ∧ t ∉ st.parents) ∨ t = st.statesum)))
    ∧ (∀ parent,
      ¬(st.parents.length = 1 ∧ st.parents.headD Sum.zero = st.statesum) →
      st.parents.head?.bind (statesGet p.states) = some parent →
      Commit.from_diff esum parent st = none →
      p.push_state esum st = (.ok false, p)) := by
  refine ⟨?_, ?_, ?_, ?_⟩
  · intro h
    unfold Partition.push_state
    rw [if_pos h]
  · intro h1 h2
    unfold Partition.push_state
    rw [if_neg h1, h2]
  · intro parent c h1 h2 h3
    have hres : p.push_state esum st = (.ok true, p.add_pair c st) := by
      unfold Partition.push_state
      rw [if_neg h1, h2]
      show (match Commit.from_diff esum parent st with
        | some c => ((Except.ok true : Except PatchOp Bool), p.add_pair c st)
        | none => (Except.ok false, p)) = _
      rw [h3]
    refine ⟨hres, by rw [hres]; rfl, ?_⟩
    intro t
    rw [hres]
    show t ∈ tipsInsert (st.parents.foldl tipsRemove p.tips) st.statesum ↔ _
    rw [mem_tipsInsert, mem_foldl_tipsRemove]
  · intro parent h1 h2 h3
    unfold Partition.push_state
    rw [if_neg h1, h2]
    show (match Commit.from_diff esum parent st with
      | some c => ((Except.ok true : Except PatchOp Bool), p.add_pair c st)
      | none => (Except.ok false, p)) = _
    rw [h3]

/-- Witness for the amended C3 at the clash scenario: the non-empty diff is
committed with `Ok(true)` even though the new sum is already present. -/
theorem C3_amended_witness :
    ¬(clashState.parents.length = 1
        ∧ clashState.parents.headD Sum.zero = clashState.statesum)
    ∧ clashState.parents.head?.bind (statesGet twoStatePartition.states)
        = some oneEltState
    ∧ Commit.from_diff (fun e => e) oneEltState clashState = some clashCommit
    ∧ statesContains twoStatePartition.states clashState.statesum = true
    ∧ twoStatePartition.push_state (fun e => e) clashState
        = (.ok true, twoStatePartition.add_pair clashCommit clashState) := by
  have h1 : ¬(clashState.parents.length = 1
      ∧ clashState.parents.headD Sum.zero = clashState.statesum) := by
    intro h
    exact absurd h.2 (by decide)
  have h2 : clashState.parents.head?.bind (statesGet twoStatePartition.states)
      = some oneEltState := rfl
  have h3 : Commit.from_diff (fun e => e) oneEltState clashState
      = some clashCommit := rfl
  exact ⟨h1, h2, h3, rfl,
    ((C3_push_state_amended (fun e => e) twoStatePartition clashState).2.2.1
      oneEltState clashCommit h1 h2 h3).1⟩

theorem sfsLoop_spec {E : Type} (q : List Char) :
    ∀ (l : List (PartitionState E)) (acc : List Sum), acc.length ≤ 1 →
    (((acc ++ (l.filter (fun s => s.statesum.matches_string q)).map
        PartitionState.statesum).length ≤ 1 →
      sfsLoop q acc l
        = .ok (acc ++ (l.filter (fun s => s.statesum.matches_string q)).map
            PartitionState.statesum))
    ∧ (∀ a b rest2,
      acc ++ (l.filter (fun s => s.statesum.matches_string q)).map
          PartitionState.statesum = a :: b :: rest2 →
      sfsLoop q acc l = .error (.MultiMatch a.as_string b.as_string))) := by
  intro l
  induction l with
  | nil =>
    intro acc hacc
    refine ⟨fun _ => by simp [sfsLoop], ?_⟩
    intro a b rest2 h
    simp only [List.filter_nil, List.map_nil, List.append_nil] at h
    rw [h] at hacc
    simp at hacc
  | cons s rest ih =>
    intro acc hacc
    by_cases hp : s.statesum.matches_string q = true
    · have hM : ((s :: rest).filter
          (fun t => t.statesum.matches_string q)).map PartitionState.statesum
          = s.statesum :: (rest.filter
            (fun t => t.statesum.matches_string q)).map
              PartitionState.statesum := by
        simp only [List.filter_cons, hp, if_true, List.map_cons]
      match acc, hacc with
      | [], _ =>
        rw [hM]
        have ih1 := ih [s.statesum] (by simp)
        have hstep : sfsLoop q [] (s :: rest) = sfsLoop q [s.statesum] rest := by
          simp [sfsLoop, hp]
        constructor
        · intro hlen
          rw [hstep]
          simp only [List.nil_append] at hlen ⊢
          have := ih1.1 (by simpa using hlen)
          simpa using this
        · intro a b rest2 h
          simp only [List.nil_append] at h
          rw [hstep]
          exact ih1.2 a b rest2 (by simpa using h)
      | [x], _ =>
        rw [hM]
        constructor
        · intro hlen
          simp at hlen
        · intro a b rest2 h
          have ha : a = x := by
            have := congrArg (fun l => l.headD Sum.zero) h
            simpa using this.symm
          have hb : b = s.statesum := by
            have := congrArg (fun l => l.getD 1 Sum.zero) h
            simpa using this.symm
          subst ha hb
          simp [sfsLoop, hp, List.getD]
    · have hM : ((s :: rest).filter
          (fun t => t.statesum.matches_string q)).map PartitionState.statesum
          = (rest.filter
            (fun t => t.statesum.matches_string q)).map
              PartitionState.statesum := by
        have hp2 : s.statesum.matches_string q = false := by
          simpa using hp
        simp only [List.filter_cons, hp2, Bool.false_eq_true, if_false]
      have hstep : sfsLoop q acc (s :: rest) = sfsLoop q acc rest := by
        have hlen : ¬ acc.length > 1 := by omega
        simp [sfsLoop, hp, hlen]
      rw [hM, hstep]
      exact ih acc hacc

/-- C10: state_from_string normalizes its query (uppercase, spaces
removed) and returns the unique state whose statesum matches the resulting
prefix, `Err(NoMatch)` when no state matches, and `Err(MultiMatch)` with
the string forms of two matching sums whenever two distinct statesums both
match. -/
theorem C10_state_from_string {E : Type} (p : Partition E) (q : List Char) :
    ((∀ s ∈ p.states, s.statesum.matches_string (normQuery q) = false) →
      p.state_from_string q = .error .NoMatch)
    ∧ (∀ s0, p.states.filter
          (fun s => s.statesum.matches_string (normQuery q)) = [s0] →
      p.state_from_string q = .ok s0)
    ∧ (∀ s1 s2, (p.states.map PartitionState.statesum).Nodup →
      s1 ∈ p.states → s2 ∈ p.states → s1.statesum ≠ s2.statesum →
      s1.statesum.matches_string (normQuery q) = true →
      s2.statesum.matches_string (normQuery q) = true →
      ∃ a b : Sum, a ≠ b ∧ a.matches_string (normQuery q) = true
        ∧ b.matches_string (normQuery q) = true
        ∧ p.state_from_string q
            = .error (.MultiMatch a.as_string b.as_string)) := by
  refine ⟨?_, ?_, ?_⟩
  · intro hnone
    have hfil : p.states.filter
        (fun s => s.statesum.matches_string (normQuery q)) = [] := by
      rw [List.filter_eq_nil_iff]
      intro s hs
      simp [hnone s hs]
    have hloop := (sfsLoop_spec (normQuery q) p.states [] (by simp)).1
      (by rw [hfil]; simp)
    rw [hfil] at hloop
    simp only [List.map_nil, List.append_nil] at hloop
    simp [Partition.state_from_string, hloop]
  · intro s0 hfil
    have hmem : s0 ∈ p.states.filter
        (fun s => s.statesum.matches_string (normQuery q)) := by
      rw [hfil]; exact List.mem_singleton_self s0
    have hs0mem : s0 ∈ p.states := (List.mem_filter.1 hmem).1
    have hs0pred : s0.statesum.matches_string (normQuery q) = true :=
      (List.mem_filter.1 hmem).2
    have hloop := (sfsLoop_spec (normQuery q) p.states [] (by simp)).1
      (by rw [hfil]; simp)
    rw [hfil] at hloop
    simp only [List.map_cons, List.map_nil, List.nil_append] at hloop
    cases hfind : statesGet p.states s0.statesum with
    | none =>
      exfalso
      unfold statesGet at hfind
      have := List.find?_eq_none.1 hfind s0 hs0mem
      simp at this
    | some sfound =>
      have hfeq : (sfound.statesum == s0.statesum) = true := by
        unfold statesGet at hfind
        have := List.find?_some hfind
        simpa using this
      have hfmem : sfound ∈ p.states := by
        unfold statesGet at hfind
        exact List.mem_of_find?_eq_some hfind
      have hfpred : sfound ∈ p.states.filter
          (fun s => s.statesum.matches_string (normQuery q)) := by
        refine List.mem_filter.2 ⟨hfmem, ?_⟩
        rw [show sfound.statesum = s0.statesum from eq_of_beq hfeq]
        exact hs0pred
      rw [hfil] at hfpred
      have heq : sfound = s0 := by simpa using hfpred
      simp [Partition.state_from_string, hloop, List.headD, hfind, heq]
  · intro s1 s2 hnodup h1m h2m hne hm1 hm2
    have h1f : s1.statesum ∈ (p.states.filter
        (fun s => s.statesum.matches_string (normQuery q))).map
          PartitionState.statesum :=
      List.mem_map_of_mem _ (List.mem_filter.2 ⟨h1m, hm1⟩)
    have h2f : s2.statesum ∈ (p.states.filter
        (fun s => s.statesum.matches_string (normQuery q))).map
          PartitionState.statesum :=
      List.mem_map_of_mem _ (List.mem_filter.2 ⟨h2m, hm2⟩)
    have hnodupM : ((p.states.filter
        (fun s => s.statesum.matches_string (normQuery q))).map
          PartitionState.statesum).Nodup := by
      have hsub : List.Sublist (p.states.filter
          (fun s => s.statesum.matches_string (normQuery q))) p.states :=
        List.filter_sublist p.states
      exact List.Nodup.sublist (hsub.map PartitionState.statesum) hnodup
    have hmatchM : ∀ x ∈ (p.states.filter
        (fun s => s.statesum.matches_string (normQuery q))).map
          PartitionState.statesum, x.matches_string (normQuery q) = true := by
      intro x hx
      rcases List.mem_map.1 hx with ⟨s', hs', rfl⟩
      exact (List.mem_filter.1 hs').2
    rcases hMeq : (p.states.filter
        (fun s => s.statesum.matches_string (normQuery q))).map
          PartitionState.statesum with _ | ⟨a, _ | ⟨b, r⟩⟩
    · rw [hMeq] at h1f; simp at h1f
    · rw [hMeq] at h1f h2f
      simp only [List.mem_singleton] at h1f h2f
      exact absurd (h1f.trans h2f.symm) hne
    · have hloop := (sfsLoop_spec (normQuery q) p.states [] (by simp)).2
        a b r (by rw [hMeq]; simp)
      refine ⟨a, b, ?_, ?_, ?_, ?_⟩
      · have := hnodupM
        rw [hMeq, List.nodup_cons] at this
        exact fun hab => this.1 (hab ▸ List.mem_cons_self b r)
      · exact hmatchM a (by rw [hMeq]; simp)
      · exact hmatchM b (by rw [hMeq]; simp)
      · simp [Partition.state_from_string, hloop]

/-- Witness for C10 at a concrete partition with two states (sums 0 and 5)
and the empty query, which both sums match: the lookup reports
`MultiMatch`. -/
theorem C10_witness :
    ∃ a b : Sum, a ≠ b ∧ a.matches_string (normQuery []) = true
      ∧ b.matches_string (normQuery []) = true
      ∧ twoStatePartition.state_from_string []
          = .error (.MultiMatch a.as_string b.as_string) :=
  (C10_state_from_string twoStatePartition []).2.2
    (PartitionState.new Nat 1) oneEltState
    (by decide)
    (List.mem_cons_self _ _)
    (List.mem_cons_of_mem _ (List.mem_cons_self _ _))
    (by decide) rfl rfl

theorem allocLoop_spec (occupied : Nat → Bool) :
    ∀ (n m : Nat), allocLoop occupied n = some m →
    occupied m = false ∧ n ≤ m ∧ ∀ k, n ≤ k → k < m → occupied k = true := by
  have key : ∀ (fuel n m : Nat), 1000001 - n ≤ fuel →
      allocLoop occupied n = some m →
      occupied m = false ∧ n ≤ m ∧
        ∀ k, n ≤ k → k < m → occupied k = true := by
    intro fuel
    induction fuel with
    | zero =>
      intro n m hf h
      rw [allocLoop] at h
      by_cases ho : occupied n = true
      · rw [if_pos ho] at h
        have hn : n > 1000000 := by omega
        rw [if_pos hn] at h
        exact absurd h (by simp)
      · rw [if_neg ho] at h
        obtain rfl : n = m := by simpa using h
        exact ⟨by simpa using ho, le_refl n, fun k hk1 hk2 => by omega⟩
    | succ f ih =>
      intro n m hf h
      rw [allocLoop] at h
      by_cases ho : occupied n = true
      · rw [if_pos ho] at h
        by_cases hn : n > 1000000
        · rw [if_pos hn] at h
          exact absurd h (by simp)
        · rw [if_neg hn] at h
          have hf2 : 1000001 - (n + 1) ≤ f := by omega
          obtain ⟨h1, h2, h3⟩ := ih (n + 1) m hf2 h
          refine ⟨h1, by omega, ?_⟩
          intro k hk1 hk2
          rcases Nat.eq_or_lt_of_le hk1 with rfl | hlt
          · exact ho
          · exact h3 k (by omega) hk2
      · rw [if_neg ho] at h
        obtain rfl : n = m := by simpa using h
        exact ⟨by simpa using ho, le_refl n, fun k hk1 hk2 => by omega⟩
  intro n m h
  exact key (1000001 - n) n m (le_refl _) h

theorem writeCommitsLoop_spec {E : Type} (commit_ok : Nat → Bool) :
    ∀ (l : List (Commit E)) (i : Nat),
    (writeCommitsLoop commit_ok i l).2.1
        ++ (writeCommitsLoop commit_ok i l).2.2 = l
    ∧ ((writeCommitsLoop commit_ok i l).1 = true →
      (writeCommitsLoop commit_ok i l).2.2 = []) := by
  intro l
  induction l with
  | nil => intro i; simp [writeCommitsLoop]
  | cons c rest ih =>
    intro i
    by_cases hc : commit_ok i = true
    · constructor
      · simp only [writeCommitsLoop, hc, if_true, List.cons_append,
          List.cons.injEq, true_and]
        exact (ih (i + 1)).1
      · intro hs
        simp only [writeCommitsLoop, hc, if_true] at hs ⊢
        exact (ih (i + 1)).2 hs
    · simp [writeCommitsLoop, hc]

theorem write_snapshot_unsaved {E : Type} (d : DiskModel)
    (p : Partition E) :
    ((p.write_snapshot d).2.1).unsaved = p.unsaved := by
  unfold Partition.write_snapshot
  repeat first | rfl | split

theorem write_snapshot_states {E : Type} (d : DiskModel) (p : Partition E) :
    ((p.write_snapshot d).2.1).states = p.states := by
  unfold Partition.write_snapshot
  repeat first | rfl | split

theorem writeMaintain_spec {E : Type} (d : DiskModel) (p : Partition E)
    (fast : Bool) (hc : Bool) (w : List (Commit E)) :
    ((writeMaintain d p fast hc w).2.1).unsaved = p.unsaved
    ∧ (writeMaintain d p fast hc w).2.2 = w
    ∧ (∀ b, (writeMaintain d p fast hc w).1 = .ok b → b = hc) := by
  unfold writeMaintain
  split
  · rcases hws : p.write_snapshot d with ⟨res, p2, art⟩
    have hu : p2.unsaved = p.unsaved := by
      have h2 := write_snapshot_unsaved d p
      rw [hws] at h2
      exact h2
    cases res with
    | ok u =>
      refine ⟨hu, rfl, ?_⟩
      intro b hb
      simpa using hb.symm
    | error e =>
      refine ⟨hu, rfl, ?_⟩
      intro b hb
      exact absurd hb (by simp)
  · exact ⟨rfl, rfl, fun b hb => by simpa using hb.symm⟩

/-- C4: write pops each queued commit only after that commit has been
written, in FIFO order; a failed write leaves the failing commit and all
later ones queued for retry; and among `Ok` returns the result is `true`
exactly when `unsaved` was non-empty at the call. -/
theorem C4_write_commit_queue {E : Type} (d : DiskModel) (p : Partition E)
    (fast : Bool) :
    (∀ b p1 written, p.write d fast = (.ok b, p1, written) →
      written = p.unsaved ∧ p1.unsaved = []
      ∧ (b = true ↔ p.unsaved ≠ []))
    ∧ (∀ e p1 written, p.write d fast = (.error e, p1, written) →
      written ++ p1.unsaved = p.unsaved) := by
  constructor
  · intro b p1 written hw
    unfold Partition.write at hw
    split at hw
    · next hu =>
      have hemp : p.unsaved = [] := by simpa using hu
      obtain ⟨hm1, hm2, hm3⟩ := writeMaintain_spec d p fast false []
      rw [hw] at hm1 hm2 hm3
      simp only at hm1 hm2 hm3
      have hb := hm3 b rfl
      subst hb
      refine ⟨by rw [hm2, hemp], by rw [hm1, hemp], by simp [hemp]⟩
    · next hu =>
      have hne : p.unsaved ≠ [] := by simpa using hu
      split at hw
      · simp at hw
      · split at hw
        · split at hw
          · next w1 rest hloop =>
            obtain ⟨hl1, hl2⟩ := writeCommitsLoop_spec d.commit_ok p.unsaved 0
            rw [hloop] at hl1 hl2
            simp only at hl1 hl2
            have hrest : rest = [] := by simpa using hl2
            obtain ⟨hm1, hm2, hm3⟩ :=
              writeMaintain_spec d { p with unsaved := rest } fast true w1
            rw [hw] at hm1 hm2 hm3
            simp only at hm1 hm2 hm3
            have hb := hm3 b rfl
            subst hb
            refine ⟨?_, ?_, by simp [hne]⟩
            · rw [hm2, ← hl1, hrest, List.append_nil]
            · rw [hm1, hrest]
          · simp at hw
        · simp at hw
  · intro e p1 written hw
    unfold Partition.write at hw
    split at hw
    · next hu =>
      have hemp : p.unsaved = [] := by simpa using hu
      obtain ⟨hm1, hm2, _⟩ := writeMaintain_spec d p fast false []
      rw [hw] at hm1 hm2
      simp only at hm1 hm2
      rw [hm2, hm1, hemp]
      rfl
    · next hu =>
      split at hw
      · obtain ⟨rfl, rfl, rfl⟩ : LibError.logNumTooHigh = e ∧ p = p1
            ∧ ([] : List (Commit E)) = written := by
          simpa [Prod.ext_iff] using hw
        simp
      · split at hw
        · split at hw
          · next w1 rest hloop =>
            obtain ⟨hl1, _⟩ := writeCommitsLoop_spec d.commit_ok p.unsaved 0
            rw [hloop] at hl1
            simp only at hl1
            obtain ⟨hm1, hm2, _⟩ :=
              writeMaintain_spec d { p with unsaved := rest } fast true w1
            rw [hw] at hm1 hm2
            simp only at hm1 hm2
            rw [hm2, hm1]
            exact hl1
          · next w1 rest hloop =>
            obtain ⟨hl1, _⟩ := writeCommitsLoop_spec d.commit_ok p.unsaved 0
            rw [hloop] at hl1
            simp only at hl1
            obtain ⟨rfl, rfl, rfl⟩ : LibError.ioFail = e
                ∧ { p with unsaved := rest } = p1 ∧ w1 = written := by
              simpa [Prod.ext_iff] using hw
            exact hl1
        · obtain ⟨rfl, rfl, rfl⟩ : LibError.ioFail = e ∧ p = p1
              ∧ ([] : List (Commit E)) = written := by
            simpa [Prod.ext_iff] using hw
          simp

/-- Witness for C4 at a concrete partition with one queued commit and a
clean disk: the fast write succeeds, empties the queue and reports true. -/
theorem C4_witness :
    queuedPartition.write cleanDisk true
      = (.ok true, { queuedPartition with unsaved := [] }, [insertCommit])
    ∧ [insertCommit] = queuedPartition.unsaved
    ∧ (true = true ↔ queuedPartition.unsaved ≠ []) := by
  have hw : queuedPartition.write cleanDisk true
      = (.ok true, { queuedPartition with unsaved := [] }, [insertCommit]) := by
    rw [Partition.write]
    rw [show allocLoop (cleanDisk.cl_exists queuedPartition.ss_num)
        (cleanDisk.ss_cl_len queuedPartition.ss_num) = some 0 from by
      rw [allocLoop]; rfl]
    rfl
  have main := (C4_write_commit_queue cleanDisk queuedPartition true).1
    true { queuedPartition with unsaved := [] } [insertCommit] hw
  exact ⟨hw, main.1, main.2.2⟩

/-- C9: write_snapshot fails without touching the partition or writing
anything whenever there is not exactly one tip; with a single tip present
in `states` it writes the header and snapshot body for the tip state at the
first free number at or above `ss_num + 1`, records that number in
`ss_num` and resets the policy counters. -/
theorem C9_write_snapshot_behaviour {E : Type} (d : DiskModel)
    (p : Partition E) :
    (p.tips.length ≠ 1 →
      (∃ e, (p.write_snapshot d).1 = .error e)
      ∧ (p.write_snapshot d).2.1 = p
      ∧ (p.write_snapshot d).2.2 = none)
    ∧ (∀ t st n, p.tips = [t] → statesGet p.states t = some st →
      allocLoop d.ss_exists (p.ss_num + 1) = some n →
      d.header_ok = true → d.snapshot_body_ok = true →
      (p.write_snapshot d).1 = .ok ()
      ∧ (p.write_snapshot d).2.2 = some (n, st)
      ∧ ((p.write_snapshot d).2.1).ss_num = n
      ∧ ((p.write_snapshot d).2.1).ss_policy = { commits := 0, edits := 0 }
      ∧ ((p.write_snapshot d).2.1).states = p.states
      ∧ ((p.write_snapshot d).2.1).tips = p.tips
      ∧ ((p.write_snapshot d).2.1).unsaved = p.unsaved
      ∧ d.ss_exists n = false ∧ p.ss_num + 1 ≤ n
      ∧ (∀ m, p.ss_num + 1 ≤ m → m < n → d.ss_exists m = true)) := by
  constructor
  · intro hlen
    unfold Partition.write_snapshot
    unfold Partition.tip_key
    rw [if_neg hlen]
    by_cases he : p.tips.isEmpty
    · rw [if_pos he]
      exact ⟨⟨.tipNotReady, rfl⟩, rfl, rfl⟩
    · rw [if_neg he]
      exact ⟨⟨.tipMergeRequired, rfl⟩, rfl, rfl⟩
  · intro t st n htips hget halloc hhead hbody
    have htk : p.tip_key = .ok t := by
      unfold Partition.tip_key
      rw [htips]
      rfl
    have hres : p.write_snapshot d
        = (.ok (), { p with ss_num := n, ss_policy := p.ss_policy.reset },
            some (n, st)) := by
      unfold Partition.write_snapshot
      rw [htk, halloc, hhead, hbody]
      simp only [Bool.and_self, if_true]
      rw [hget]
    obtain ⟨ha1, ha2, ha3⟩ := allocLoop_spec d.ss_exists (p.ss_num + 1) n halloc
    rw [hres]
    exact ⟨rfl, rfl, rfl, rfl, rfl, rfl, rfl, ha1, ha2, ha3⟩

/-- Witness for C9 at the genesis partition on a clean disk: the snapshot
goes to slot 1 and the policy is reset. -/
theorem C9_witness :
    (genesisPartition.write_snapshot cleanDisk).1 = .ok ()
    ∧ (genesisPartition.write_snapshot cleanDisk).2.2
        = some (1, PartitionState.new Nat 1)
    ∧ ((genesisPartition.write_snapshot cleanDisk).2.1).ss_num = 1
    ∧ ((genesisPartition.write_snapshot cleanDisk).2.1).ss_policy
        = { commits := 0, edits := 0 } := by
  have halloc : allocLoop cleanDisk.ss_exists (genesisPartition.ss_num + 1)
      = some 1 := by
    rw [allocLoop]
    rfl
  have main := (C9_write_snapshot_behaviour cleanDisk genesisPartition).2
    Sum.zero (PartitionState.new Nat 1) 1 rfl rfl halloc rfl rfl
  exact ⟨main.1, main.2.1, main.2.2.1, main.2.2.2.1⟩

theorem scanSS_eq_of_newest {E : Type} (d : LoadDisk E) :
    ∀ (n m : Nat) (st : PartitionState E), m ≤ n →
    d.read_ss m = some st →
    (∀ j, m < j → j ≤ n → d.read_ss j = none) →
    scanSS d n = (m, some st) := by
  intro n
  induction n with
  | zero =>
    intro m st hm hr _
    obtain rfl : m = 0 := by omega
    simp [scanSS, hr]
  | succ k ih =>
    intro m st hm hr hnone
    by_cases he : m = k + 1
    · subst he
      simp [scanSS, hr]
    · have hm2 : m ≤ k := by omega
      have hn : d.read_ss (k + 1) = none := hnone (k + 1) (by omega) (by omega)
      simp only [scanSS, hn]
      exact ih m st hm2 hr (fun j h1 h2 => hnone j h1 (by omega))

theorem scanSS_eq_of_none {E : Type} (d : LoadDisk E) :
    ∀ (n : Nat), (∀ j, j ≤ n → d.read_ss j = none) →
    scanSS d n = (0, none) := by
  intro n
  induction n with
  | zero =>
    intro hnone
    simp [scanSS, hnone 0 (le_refl 0)]
  | succ k ih =>
    intro hnone
    simp only [scanSS, hnone (k + 1) (le_refl (k + 1))]
    exact ih (fun j hj => hnone j (by omega))

theorem statesInsert_mem_mono {E : Type} (states : List (PartitionState E))
    (st s : PartitionState E) (h : s ∈ states) :
    s ∈ statesInsert states st := by
  unfold statesInsert
  split
  · exact h
  · exact List.mem_append_left _ h

theorem replayPass_mono {E : Type} (esum : E → Sum) :
    ∀ (queue : List (Commit E)) (states : List (PartitionState E))
      (tips : List Sum) (edits : Nat)
      (r : List (PartitionState E) × List Sum × Nat × List (Commit E)),
    replayPass esum states tips edits queue = .ok r →
    ∀ s ∈ states, s ∈ r.1 := by
  intro queue
  induction queue with
  | nil =>
    intro states tips edits r h s hs
    simp only [replayPass, Except.ok.injEq] at h
    rw [← h]
    exact hs
  | cons c rest ih =>
    intro states tips edits r h s hs
    simp only [replayPass] at h
    split at h
    · split at h
      · exact absurd h (by simp)
      · next st hp =>
        exact ih _ _ _ r h s (statesInsert_mem_mono states st s hs)
    · split at h
      · exact absurd h (by simp)
      · next s2 t2 e2 defq hrec =>
        simp only [Except.ok.injEq] at h
        have := ih states tips edits (s2, t2, e2, defq) hrec s hs
        rw [← h]
        exact this

theorem replayRounds_mono {E : Type} (esum : E → Sum) :
    ∀ (fuel : Nat) (states : List (PartitionState E)) (tips : List Sum)
      (edits : Nat) (queue : List (Commit E))
      (r : List (PartitionState E) × List Sum × Nat),
    replayRounds esum fuel states tips edits queue = .ok r →
    ∀ s ∈ states, s ∈ r.1 := by
  intro fuel
  induction fuel with
  | zero =>
    intro states tips edits queue r h s hs
    simp only [replayRounds, Except.ok.injEq] at h
    rw [← h]
    exact hs
  | succ f ih =>
    intro states tips edits queue r h s hs
    simp only [replayRounds] at h
    split at h
    · exact absurd h (by simp)
    · next s2 t2 e2 defq hp =>
      have hmem : s ∈ s2 := replayPass_mono esum queue states tips edits
        (s2, t2, e2, defq) hp s hs
      split at h
      · exact ih s2 t2 e2 defq r h s hmem
      · simp only [Except.ok.injEq] at h
        rw [← h]
        exact hmem

theorem replay_mono {E : Type} (esum : E → Sum)
    (states : List (PartitionState E)) (tips : List Sum)
    (queue : List (Commit E)) (r : List (PartitionState E) × List Sum × Nat)
    (h : replay esum states tips queue = .ok r) :
    ∀ s ∈ states, s ∈ r.1 :=
  replayRounds_mono esum (queue.length + 1) states tips 0 queue r h

theorem require_snapshot_true (q : SnapshotPolicy) :
    q.require.snapshot = true := by
  simp only [SnapshotPolicy.require, SnapshotPolicy.snapshot,
    decide_eq_true_eq]
  omega

theorem loadFastTail_ok {E : Type} (esum : E → Sum) (d : LoadDisk E)
    (p : Partition E) (num : Nat) (states1 : List (PartitionState E))
    (tips1 : List Sum) (p2 : Partition E)
    (h : loadFastTail esum d p num states1 tips1 = (.ok (), p2)) :
    p2.ss_num = d.ss_len - 1
    ∧ (num < d.ss_len - 1 → p2.ss_policy.snapshot = true)
    ∧ ∃ edits, replay esum
        (if tips1.isEmpty then
          statesInsert states1 (PartitionState.new E p.part_id)
        else states1)
        (if tips1.isEmpty then
          tipsInsert tips1 (PartitionState.new E p.part_id).statesum
        else tips1)
        (loadLogs d num d.ss_len) = .ok (p2.states, p2.tips, edits) := by
  unfold loadFastTail at h
  split at h
  · exact absurd h (by simp)
  · next states3 tips3 edits hrep =>
    split at h
    · exact absurd h (by simp)
    · have hp2 : p2 =
          { p with ss_num := d.ss_len - 1,
                   ss_policy := loadFastPolicy p.ss_policy
                     (loadLogs d num d.ss_len).length edits num
                     (d.ss_len - 1),
                   states := states3, tips := tips3 } := by
        have h2 := congrArg Prod.snd h
        simpa using h2.symm
      refine ⟨by rw [hp2], ?_, ⟨edits, ?_⟩⟩
      · intro hnum
        rw [hp2]
        show (loadFastPolicy p.ss_policy
          (loadLogs d num d.ss_len).length edits num (d.ss_len - 1)).snapshot
            = true
        unfold loadFastPolicy
        rw [if_pos hnum]
        exact require_snapshot_true _
      · rw [hp2]
        exact hrep

/-- C5: on a fresh partition, fast-mode load leaves `ss_num = ss_len - 1`;
when no snapshot exists it seeds the state set with the genesis state and,
when moreover the final slot is not slot 0, forces the snapshot policy;
when a newest snapshot exists, its state is loaded and the logs from its
index upward are replayed to produce the final state and tip sets, with the
policy forced whenever that newest snapshot is not in the final slot. -/
theorem C5_load_fast {E : Type} (esum : E → Sum) (d : LoadDisk E)
    (part_id : Nat) (p2 : Partition E) (hlen : 0 < d.ss_len)
    (hok : (Partition.openPart E part_id).load esum d false = (.ok (), p2)) :
    p2.ss_num = d.ss_len - 1
    ∧ ((∀ i, i < d.ss_len → d.read_ss i = none) →
      PartitionState.new E part_id ∈ p2.states
      ∧ (0 < d.ss_len - 1 → p2.ss_policy.snapshot = true))
    ∧ (∀ m st, m < d.ss_len → d.read_ss m = some st →
      (∀ j, m < j → j < d.ss_len → d.read_ss j = none) →
      st ∈ p2.states
      ∧ (m < d.ss_len - 1 → p2.ss_policy.snapshot = true)
      ∧ ∃ edits, replay esum (statesInsert [] st)
          (tipsInsert [] st.statesum) (loadLogs d m d.ss_len)
          = .ok (p2.states, p2.tips, edits)) := by
  have h0 : ¬ d.ss_len = 0 := by omega
  unfold Partition.load at hok
  rw [if_neg h0, if_neg (by simp : ¬ (false : Bool) = true)] at hok
  refine ⟨?_, ?_, ?_⟩
  · rcases hscan : scanSS d (d.ss_len - 1) with ⟨num, found⟩
    rw [hscan] at hok
    cases found with
    | some st => exact (loadFastTail_ok esum d _ num _ _ p2 hok).1
    | none => exact (loadFastTail_ok esum d _ num _ _ p2 hok).1
  · intro hnone
    have hscan : scanSS d (d.ss_len - 1) = (0, none) :=
      scanSS_eq_of_none d (d.ss_len - 1) (fun j hj => hnone j (by omega))
    rw [hscan] at hok
    obtain ⟨hss, hreq, ⟨edits, hrep⟩⟩ :=
      loadFastTail_ok esum d _ 0 _ _ p2 hok
    simp only [Partition.openPart, List.isEmpty_nil, if_true] at hrep
    constructor
    · have hmem : PartitionState.new E part_id
          ∈ statesInsert ([] : List (PartitionState E))
            (PartitionState.new E part_id) := by
        simp [statesInsert, statesContains, statesGet]
      have := replay_mono esum _ _ _ _ hrep _ hmem
      simpa using this
    · exact hreq
  · intro m st hm hr hnone
    have hscan : scanSS d (d.ss_len - 1) = (m, some st) :=
      scanSS_eq_of_newest d (d.ss_len - 1) m st (by omega) hr
        (fun j h1 h2 => hnone j h1 (by omega))
    rw [hscan] at hok
    obtain ⟨hss, hreq, ⟨edits, hrep⟩⟩ :=
      loadFastTail_ok esum d _ m _ _ p2 hok
    have htne : (tipsInsert (Partition.openPart E part_id).tips
        st.statesum).isEmpty = false := by
      simp [Partition.openPart, tipsInsert]
    rw [htne] at hrep
    simp only [Bool.false_eq_true, if_false] at hrep
    constructor
    · have hmem : st ∈ statesInsert (Partition.openPart E part_id).states st := by
        simp [Partition.openPart, statesInsert, statesContains, statesGet]
      have := replay_mono esum _ _ _ _ hrep _ hmem
      simpa using this
    · exact ⟨hreq, ⟨edits, hrep⟩⟩

/-- Witness for C5 on a one-slot adapter holding no files at all: the load
seeds the genesis state and sets `ss_num` to 0. -/
theorem C5_witness :
    (0 : Nat) < emptyLoadDisk.ss_len
    ∧ ((Partition.openPart Nat 1).load (fun e => e) emptyLoadDisk false).2.ss_num
        = emptyLoadDisk.ss_len - 1
    ∧ PartitionState.new Nat 1
        ∈ ((Partition.openPart Nat 1).load (fun e => e)
            emptyLoadDisk false).2.states := by
  have hok : (Partition.openPart Nat 1).load (fun e => e) emptyLoadDisk false
      = (.ok (), ((Partition.openPart Nat 1).load (fun e => e)
          emptyLoadDisk false).2) := rfl
  have main := C5_load_fast (fun e => e) emptyLoadDisk 1 _ (by decide) hok
  exact ⟨by decide, main.1, (main.2.1 (fun i _ => rfl)).1⟩

theorem pendingWeight_mono {E : Type} (k : Sum)
    (states : List (PartitionState E)) (a1 : List Sum) :
    pendingWeight states (k :: a1) ≤ pendingWeight states a1 := by
  induction states with
  | nil => simp [pendingWeight]
  | cons s rest ih =>
    by_cases hm1 : s.statesum ∈ k :: a1
    · by_cases hm2 : s.statesum ∈ a1
      · simpa [pendingWeight, List.filter_cons, hm1, hm2] using ih
      · have h2 := ih
        simp only [pendingWeight, List.filter_cons, hm1, hm2] at h2 ⊢
        simp only [decide_True, decide_False, Bool.not_true, Bool.not_false,
          Bool.false_eq_true, if_false, if_true, List.map_cons,
          List.sum_cons] at h2 ⊢
        omega
    · have hm2 : s.statesum ∉ a1 := fun h => hm1 (List.mem_cons_of_mem k h)
      have h2 := ih
      simp only [pendingWeight, List.filter_cons, hm1, hm2] at h2 ⊢
      simp only [decide_False, Bool.not_false, if_true, List.map_cons,
        List.sum_cons] at h2 ⊢
      omega

theorem pendingWeight_insert {E : Type} (k : Sum)
    (states : List (PartitionState E)) (a1 : List Sum) (hk : k ∉ a1) :
    pendingWeight states (k :: a1) + (lcaParents states k).length
      ≤ pendingWeight states a1 := by
  induction states with
  | nil => simp [pendingWeight, lcaParents, statesGet]
  | cons s rest ih =>
    by_cases hsk : s.statesum = k
    · have hget : lcaParents (s :: rest) k = s.parents := by
        simp [lcaParents, statesGet, List.find?_cons, hsk]
      have hm1 : s.statesum ∈ k :: a1 := by simp [hsk]
      have hm2 : s.statesum ∉ a1 := by rw [hsk]; exact hk
      have hmono := pendingWeight_mono k rest a1
      simp only [pendingWeight, List.filter_cons, hm1, hm2, hget] at hmono ⊢
      simp only [decide_True, decide_False, Bool.not_true, Bool.not_false,
        Bool.false_eq_true, if_false, if_true, List.map_cons,
        List.sum_cons] at hmono ⊢
      omega
    · have hget : lcaParents (s :: rest) k = lcaParents rest k := by
        simp only [lcaParents, statesGet, List.find?_cons]
        have : (s.statesum == k) = false := by simpa using hsk
        rw [this]
      by_cases hm2 : s.statesum ∈ a1
      · have hm1 : s.statesum ∈ k :: a1 := List.mem_cons_of_mem k hm2
        have h2 := ih
        simp only [pendingWeight, List.filter_cons, hm1, hm2, hget] at h2 ⊢
        simp only [decide_True, Bool.not_true, Bool.false_eq_true,
          if_false] at h2 ⊢
        omega
      · have hm1 : s.statesum ∉ k :: a1 := by
          intro h
          rcases List.mem_cons.1 h with h1 | h1
          · exact hsk h1
          · exact hm2 h1
        have h2 := ih
        simp only [pendingWeight, List.filter_cons, hm1, hm2, hget] at h2 ⊢
        simp only [decide_False, Bool.not_false, if_true, List.map_cons,
          List.sum_cons] at h2 ⊢
        omega

theorem lcaLoop1_total {E : Type} (states : List (PartitionState E)) :
    ∀ (fuel : Nat) (a1 stack : List Sum),
    stack.length + pendingWeight states a1 ≤ fuel →
    lcaLoop1 states fuel a1 stack ≠ none := by
  intro fuel
  induction fuel with
  | zero =>
    intro a1 stack hle
    cases stack with
    | nil => simp [lcaLoop1]
    | cons a t => simp only [List.length_cons] at hle; omega
  | succ f ih =>
    intro a1 stack hle
    cases stack with
    | nil => simp [lcaLoop1]
    | cons k rest =>
      simp only [lcaLoop1]
      by_cases hk : k ∈ a1
      · rw [if_pos hk]
        apply ih
        simp only [List.length_cons] at hle
        omega
      · rw [if_neg hk]
        apply ih
        have hins := pendingWeight_insert k states a1 hk
        simp only [List.length_append, List.length_reverse,
          List.length_cons] at hle ⊢
        omega

theorem lcaLoop2_total {E : Type} (states : List (PartitionState E))
    (a1 : List Sum) :
    ∀ (fuel : Nat) (a2 stack : List Sum),
    stack.length + pendingWeight states a2 ≤ fuel →
    lcaLoop2 states a1 fuel a2 stack ≠ none := by
  intro fuel
  induction fuel with
  | zero =>
    intro a2 stack hle
    cases stack with
    | nil => simp [lcaLoop2]
    | cons a t => simp only [List.length_cons] at hle; omega
  | succ f ih =>
    intro a2 stack hle
    cases stack with
    | nil => simp [lcaLoop2]
    | cons k rest =>
      simp only [lcaLoop2]
      by_cases h2 : k ∈ a2
      · rw [if_pos h2]
        apply ih
        simp only [List.length_cons] at hle
        omega
      · rw [if_neg h2]
        by_cases h1 : k ∈ a1
        · rw [if_pos h1]
          simp
        · rw [if_neg h1]
          apply ih
          have hins := pendingWeight_insert k states a2 h2
          simp only [List.length_append, List.length_reverse,
            List.length_cons] at hle ⊢
          omega

theorem lcaLoop1_sound {E : Type} (states : List (PartitionState E))
    (k1 : Sum) :
    ∀ (fuel : Nat) (a1 stack res : List Sum),
    lcaLoop1 states fuel a1 stack = some res →
    (∀ x ∈ a1, Anc states k1 x) →
    (∀ x ∈ stack, Anc states k1 x) →
    ∀ x ∈ res, Anc states k1 x := by
  intro fuel
  induction fuel with
  | zero =>
    intro a1 stack res h ha hs
    cases stack with
    | nil =>
      simp only [lcaLoop1, Option.some.injEq] at h
      rw [← h]
      exact ha
    | cons k rest => simp [lcaLoop1] at h
  | succ f ih =>
    intro a1 stack res h ha hs
    cases stack with
    | nil =>
      simp only [lcaLoop1, Option.some.injEq] at h
      rw [← h]
      exact ha
    | cons k rest =>
      simp only [lcaLoop1] at h
      by_cases hk : k ∈ a1
      · rw [if_pos hk] at h
        exact ih a1 rest res h ha
          (fun x hx => hs x (List.mem_cons_of_mem k hx))
      · rw [if_neg hk] at h
        refine ih _ _ res h ?_ ?_
        · intro x hx
          rcases List.mem_cons.1 hx with rfl | hx2
          · exact hs x (List.mem_cons_self x rest)
          · exact ha x hx2
        · intro x hx
          rcases List.mem_append.1 hx with hx1 | hx2
          · rw [List.mem_reverse] at hx1
            have hkanc : Anc states k1 k := hs k (List.mem_cons_self k rest)
            unfold lcaParents at hx1
            cases hg : statesGet states k with
            | some s =>
              rw [hg] at hx1
              exact Anc.step k x s hkanc hg hx1
            | none =>
              rw [hg] at hx1
              simp at hx1
          · exact hs x (List.mem_cons_of_mem k hx2)

theorem lcaLoop1_closed {E : Type} (states : List (PartitionState E)) :
    ∀ (fuel : Nat) (a1 stack res : List Sum),
    lcaLoop1 states fuel a1 stack = some res →
    (∀ x ∈ a1, ∀ p ∈ lcaParents states x, p ∈ a1 ∨ p ∈ stack) →
    (∀ x ∈ res, ∀ p ∈ lcaParents states x, p ∈ res)
    ∧ (∀ x ∈ a1, x ∈ res) ∧ (∀ x ∈ stack, x ∈ res) := by
  intro fuel
  induction fuel with
  | zero =>
    intro a1 stack res h hinv
    cases stack with
    | nil =>
      simp only [lcaLoop1, Option.some.injEq] at h
      subst h
      refine ⟨?_, fun x hx => hx, fun x hx => by simp at hx⟩
      intro x hx p hp
      rcases hinv x hx p hp with h1 | h1
      · exact h1
      · simp at h1
    | cons k rest => simp [lcaLoop1] at h
  | succ f ih =>
    intro a1 stack res h hinv
    cases stack with
    | nil =>
      simp only [lcaLoop1, Option.some.injEq] at h
      subst h
      refine ⟨?_, fun x hx => hx, fun x hx => by simp at hx⟩
      intro x hx p hp
      rcases hinv x hx p hp with h1 | h1
      · exact h1
      · simp at h1
    | cons k rest =>
      simp only [lcaLoop1] at h
      by_cases hk : k ∈ a1
      · rw [if_pos hk] at h
        have hinv2 : ∀ x ∈ a1, ∀ p ∈ lcaParents states x,
            p ∈ a1 ∨ p ∈ rest := by
          intro x hx p hp
          rcases hinv x hx p hp with h1 | h1
          · exact Or.inl h1
          · rcases List.mem_cons.1 h1 with rfl | h2
            · exact Or.inl hk
            · exact Or.inr h2
        obtain ⟨hcl, hsub, hstk⟩ := ih a1 rest res h hinv2
        refine ⟨hcl, hsub, ?_⟩
        intro x hx
        rcases List.mem_cons.1 hx with rfl | h2
        · exact hsub x hk
        · exact hstk x h2
      · rw [if_neg hk] at h
        have hinv2 : ∀ x ∈ k :: a1, ∀ p ∈ lcaParents states x,
            p ∈ k :: a1 ∨ p ∈ (lcaParents states k).reverse ++ rest := by
          intro x hx p hp
          rcases List.mem_cons.1 hx with rfl | hx2
          · exact Or.inr (List.mem_append.2
              (Or.inl (List.mem_reverse.2 hp)))
          · rcases hinv x hx2 p hp with h1 | h1
            · exact Or.inl (List.mem_cons_of_mem k h1)
            · rcases List.mem_cons.1 h1 with rfl | h2
              · exact Or.inl (List.mem_cons_self p a1)
              · exact Or.inr (List.mem_append.2 (Or.inr h2))
        obtain ⟨hcl, hsub, hstk⟩ := ih (k :: a1) _ res h hinv2
        refine ⟨hcl, fun x hx => hsub x (List.mem_cons_of_mem k hx), ?_⟩
        intro x hx
        rcases List.mem_cons.1 hx with rfl | h2
        · exact hsub x (List.mem_cons_self x a1)
        · exact hstk x (List.mem_append.2 (Or.inr h2))

theorem anc_subset_of_closed {E : Type} (states : List (PartitionState E))
    (k : Sum) (A : List Sum) (hk : k ∈ A)
    (hcl : ∀ x ∈ A, ∀ p ∈ lcaParents states x, p ∈ A) :
    ∀ x, Anc states k x → x ∈ A := by
  intro x hx
  induction hx with
  | refl => exact hk
  | step j p s hanc hget hp ih =>
    apply hcl j ih
    unfold lcaParents
    rw [hget]
    exact hp

theorem lcaLoop2_found {E : Type} (states : List (PartitionState E))
    (a1 : List Sum) (k2 : Sum) :
    ∀ (fuel : Nat) (a2 stack : List Sum) (k : Sum),
    lcaLoop2 states a1 fuel a2 stack = some (some k) →
    (∀ x ∈ stack, Anc states k2 x) →
    k ∈ a1 ∧ Anc states k2 k := by
  intro fuel
  induction fuel with
  | zero =>
    intro a2 stack k h hs
    cases stack with
    | nil => simp [lcaLoop2] at h
    | cons a t => simp [lcaLoop2] at h
  | succ f ih =>
    intro a2 stack k h hs
    cases stack with
    | nil => simp [lcaLoop2] at h
    | cons kk rest =>
      simp only [lcaLoop2] at h
      by_cases h2 : kk ∈ a2
      · rw [if_pos h2] at h
        exact ih a2 rest k h (fun x hx => hs x (List.mem_cons_of_mem kk hx))
      · rw [if_neg h2] at h
        by_cases h1 : kk ∈ a1
        · rw [if_pos h1] at h
          simp only [Option.some.injEq] at h
          rw [← h]
          exact ⟨h1, hs kk (List.mem_cons_self kk rest)⟩
        · rw [if_neg h1] at h
          refine ih _ _ k h ?_
          intro x hx
          rcases List.mem_append.1 hx with hx1 | hx2
          · rw [List.mem_reverse] at hx1
            have hkanc : Anc states k2 kk :=
              hs kk (List.mem_cons_self kk rest)
            unfold lcaParents at hx1
            cases hg : statesGet states kk with
            | some s =>
              rw [hg] at hx1
              exact Anc.step kk x s hkanc hg hx1
            | none =>
              rw [hg] at hx1
              simp at hx1
          · exact hs x (List.mem_cons_of_mem kk hx2)

theorem lcaLoop2_none {E : Type} (states : List (PartitionState E))
    (a1 : List Sum) :
    ∀ (fuel : Nat) (a2 stack : List Sum),
    lcaLoop2 states a1 fuel a2 stack = some none →
    (∀ x ∈ a2, ∀ p ∈ lcaParents states x, p ∈ a2 ∨ p ∈ stack) →
    (∀ x ∈ a2, x ∉ a1) →
    ∃ A : List Sum, (∀ x ∈ a2, x ∈ A) ∧ (∀ x ∈ stack, x ∈ A)
      ∧ (∀ x ∈ A, ∀ p ∈ lcaParents states x, p ∈ A)
      ∧ (∀ x ∈ A, x ∉ a1) := by
  intro fuel
  induction fuel with
  | zero =>
    intro a2 stack h hinv hdisj
    cases stack with
    | nil =>
      refine ⟨a2, fun x hx => hx, by simp, ?_, hdisj⟩
      intro x hx p hp
      rcases hinv x hx p hp with h1 | h1
      · exact h1
      · simp at h1
    | cons a t => simp [lcaLoop2] at h
  | succ f ih =>
    intro a2 stack h hinv hdisj
    cases stack with
    | nil =>
      refine ⟨a2, fun x hx => hx, by simp, ?_, hdisj⟩
      intro x hx p hp
      rcases hinv x hx p hp with h1 | h1
      · exact h1
      · simp at h1
    | cons k rest =>
      simp only [lcaLoop2] at h
      by_cases h2 : k ∈ a2
      · rw [if_pos h2] at h
        have hinv2 : ∀ x ∈ a2, ∀ p ∈ lcaParents states x,
            p ∈ a2 ∨ p ∈ rest := by
          intro x hx p hp
          rcases hinv x hx p hp with h1 | h1
          · exact Or.inl h1
          · rcases List.mem_cons.1 h1 with rfl | h3
            · exact Or.inl h2
            · exact Or.inr h3
        obtain ⟨A, hA1, hA2, hA3, hA4⟩ := ih a2 rest h hinv2 hdisj
        refine ⟨A, hA1, ?_, hA3, hA4⟩
        intro x hx
        rcases List.mem_cons.1 hx with rfl | h3
        · exact hA1 x h2
        · exact hA2 x h3
      · by_cases h1 : k ∈ a1
        · rw [if_neg h2, if_pos h1] at h
          simp at h
        · rw [if_neg h2, if_neg h1] at h
          have hinv2 : ∀ x ∈ k :: a2, ∀ p ∈ lcaParents states x,
              p ∈ k :: a2 ∨ p ∈ (lcaParents states k).reverse ++ rest := by
            intro x hx p hp
            rcases List.mem_cons.1 hx with rfl | hx2
            · exact Or.inr (List.mem_append.2
                (Or.inl (List.mem_reverse.2 hp)))
            · rcases hinv x hx2 p hp with h3 | h3
              · exact Or.inl (List.mem_cons_of_mem k h3)
              · rcases List.mem_cons.1 h3 with rfl | h4
                · exact Or.inl (List.mem_cons_self p a2)
                · exact Or.inr (List.mem_append.2 (Or.inr h4))
          have hdisj2 : ∀ x ∈ k :: a2, x ∉ a1 := by
            intro x hx
            rcases List.mem_cons.1 hx with rfl | h3
            · exact h1
            · exact hdisj x h3
          obtain ⟨A, hA1, hA2, hA3, hA4⟩ := ih (k :: a2) _ h hinv2 hdisj2
          refine ⟨A, fun x hx => hA1 x (List.mem_cons_of_mem k hx), ?_,
            hA3, hA4⟩
          intro x hx
          rcases List.mem_cons.1 hx with rfl | h3
          · exact hA1 x (List.mem_cons_self x a2)
          · exact hA2 x (List.mem_append.2 (Or.inr h3))

/-- C8 counterexample: on a concrete three-state graph the source's search
returns sum 11 while the breadth-first search the claim describes returns
sum 10 — the traversal of the second tip's ancestors is depth-first (the
deque is pushed and popped at the same end), not breadth-first. -/
theorem C8_counterexample :
    latest_common_ancestor lcaStates 1 2 = .ok 11
    ∧ bfsLCA lcaStates 1 2 = .ok 10
    ∧ (11 : Sum) ≠ 10 := by
  refine ⟨rfl, rfl, by decide⟩

/-- C8 amended: the search collects all ancestors of the first tip into a
set, then traverses the ancestors of the second tip in depth-first (stack)
order, returning an ancestor of the second tip that lies in the first
tip's ancestor set; it fails exactly when the two ancestor graphs are
disjoint, and the visited sets bound the traversal so it terminates even
on cyclic parent references. -/
theorem lca_cases {E : Type} (states : List (PartitionState E))
    (k1 k2 : Sum) (res : Except LibError Sum)
    (h : latest_common_ancestor states k1 k2 = res) :
    ∃ a1, lcaLoop1 states (totalParents states + 1) [] [k1] = some a1
      ∧ ((∃ k, lcaLoop2 states a1 (totalParents states + 1) [] [k2]
            = some (some k) ∧ res = .ok k)
        ∨ (lcaLoop2 states a1 (totalParents states + 1) [] [k2] = some none
            ∧ res = .error .noCommonAncestor)) := by
  have hpw : pendingWeight states [] = totalParents states := by
    simp [pendingWeight, totalParents]
  unfold latest_common_ancestor at h
  split at h
  · next heq =>
    exact absurd heq (lcaLoop1_total states (totalParents states + 1)
      [] [k1] (by simp [hpw]; omega))
  · next a1 heq =>
    refine ⟨a1, heq, ?_⟩
    split at h
    · next heq2 =>
      exact absurd heq2 (lcaLoop2_total states a1 (totalParents states + 1)
        [] [k2] (by simp [hpw]; omega))
    · next k heq2 => exact Or.inl ⟨k, heq2, h.symm⟩
    · next heq2 => exact Or.inr ⟨heq2, h.symm⟩

theorem C8_lca_amended {E : Type} (states : List (PartitionState E))
    (k1 k2 : Sum) :
    (∀ s, latest_common_ancestor states k1 k2 = .ok s →
      Anc states k1 s ∧ Anc states k2 s)
    ∧ (∀ e, latest_common_ancestor states k1 k2 = .error e →
      ∀ x, ¬(Anc states k1 x ∧ Anc states k2 x)) := by
  constructor
  · intro s hok
    obtain ⟨a1res, ha1, hcase⟩ := lca_cases states k1 k2 (.ok s) hok
    rcases hcase with ⟨k, ha2, hres⟩ | ⟨ha2, hres⟩
    · simp only [Except.ok.injEq] at hres
      subst hres
      obtain ⟨hin, hanc2⟩ := lcaLoop2_found states a1res k2 _ [] [k2]
        s ha2 (by
          intro x hx
          rcases List.mem_cons.1 hx with rfl | h3
          · exact Anc.refl
          · simp at h3)
      have hanc1 : Anc states k1 s :=
        lcaLoop1_sound states k1 _ [] [k1] a1res ha1 (by simp)
          (by
            intro x hx
            rcases List.mem_cons.1 hx with rfl | h3
            · exact Anc.refl
            · simp at h3) s hin
      exact ⟨hanc1, hanc2⟩
    · exact absurd hres (by simp)
  · intro e herr x hx
    obtain ⟨hx1, hx2⟩ := hx
    obtain ⟨a1res, ha1, hcase⟩ := lca_cases states k1 k2 (.error e) herr
    rcases hcase with ⟨k, ha2, hres⟩ | ⟨ha2, hres⟩
    · exact absurd hres (by simp)
    · obtain ⟨hcl, hsub, hstk⟩ := lcaLoop1_closed states _ [] [k1]
        a1res ha1 (by simp)
      have hx1mem : x ∈ a1res :=
        anc_subset_of_closed states k1 a1res
          (hstk k1 (List.mem_cons_self k1 [])) hcl x hx1
      obtain ⟨A, hA1, hA2, hA3, hA4⟩ := lcaLoop2_none states a1res _
        [] [k2] ha2 (by simp) (by simp)
      have hx2mem : x ∈ A :=
        anc_subset_of_closed states k2 A
          (hA2 k2 (List.mem_cons_self k2 [])) hA3 x hx2
      exact hA4 x hx2mem hx1mem

/-- Witness for the amended C8: on the counterexample graph the returned
sum 11 is an ancestor of both tips. -/
theorem C8_amended_witness :
    Anc lcaStates 1 11 ∧ Anc lcaStates 2 11 :=
  (C8_lca_amended lcaStates 1 2).1 11 rfl

end Pippin
